import Mathlib

/-!
Verification development for the `auth` authorization engine of the
repository (packages `auth` — `auth.go`, `entity.go`, `error.go` — and the
second-generation `auth` package embedded in `bug/bug1/main.go`).

The Go code is shallowly embedded: pure functions become Lean functions,
per-request mutable authorizer state becomes explicit state passing, and
the external collaborators (macaroon cryptography, root-key stores,
multi-op stores, caveat checkers, identity services, the `time` package)
are taken as parameters, exactly as the specification frames them
("external collaborators").  Go byte strings are modelled as Lean
`String`s, compared through their character lists (UTF-8 byte order and
code-point order agree).  Machine integers in SHA-256 are `Nat` reduced
mod 2^32.
-/

namespace Spec2Proof

/-! ### Shared string helpers (Go byte-string operations over character lists) -/

/-- Split a character list at the first space, if any (`bytes.IndexByte(id, ' ')`
followed by slicing). -/
def splitAtSpace : List Char → Option (List Char × List Char)
  | [] => none
  | c :: rest =>
    if c = ' ' then some ([], rest)
    else
      match splitAtSpace rest with
      | none => none
      | some (a, b) => some (c :: a, b)

/-- `strings.HasPrefix`, over character lists. -/
def isPreOf : List Char → List Char → Bool
  | [], _ => true
  | _, [] => false
  | a :: as, b :: bs => if a = b then isPreOf as bs else false

/-- `strings.HasPrefix p s` for strings. -/
def hasPre (p s : String) : Bool := isPreOf p.data s.data

/-- Go's byte-lexicographic string order, via character lists (UTF-8 byte
order agrees with code-point order). -/
def strLE (s t : String) : Prop := s.data ≤ t.data

instance : DecidableRel strLE := fun s t => by
  unfold strLE; infer_instance

instance : IsTotal String strLE where
  total s t := le_total s.data t.data

instance : IsTrans String strLE where
  trans _ _ _ hab hbc := le_trans hab hbc

instance : IsAntisymm String strLE where
  antisymm s t hab hba := by
    cases s; cases t; cases le_antisymm hab hba; rfl

/-- `sort.Strings`: the sorted rearrangement under the byte-lexicographic
order (`sort.Strings` guarantees a sorted permutation, which is unique
because the order is total and antisymmetric). -/
def sortStrings (l : List String) : List String := List.insertionSort strLE l

/-- `strings.Join(l, " ")`. -/
def joinSpace : List String → String
  | [] => ""
  | [s] => s
  | s :: rest => s ++ " " ++ joinSpace rest

namespace Auth

/-- Reserved entity name for authentication macaroons (`LoginEntity` in
`entity.go`). -/
def LoginEntity : String := "login"

/-- Reserved name prelude for multi-op entities (`MultiOpEntityPrefix =
"multi"` in `entity.go`). -/
def multiOpPre : String := "multi"

/-- The distinguished ACL member naming every user (`Everyone` in
`auth.go`). -/
def Everyone : String := "everyone"

/-- `Op` from `auth.go`: an action to be authorized on a named entity. -/
structure Op where
  action : String
  entity : String
deriving DecidableEq

/-- An access control list (`ACL` in `auth.go`): a list of user/group
names. -/
abbrev ACL := List String

/-- `ACL.IsPublic` from `auth.go`: reports whether the ACL contains
`Everyone`. -/
def aclIsPublic (acl : ACL) : Bool :=
  acl.any (fun u => decide (u = Everyone))

/-! ### SHA-256 (the `crypto/sha256` digest used by `NewMultiOpEntity`)

A direct functional rendering of FIPS 180-4 over byte lists, with 32-bit
words as `Nat` mod 2^32. -/

/-- Truncate to a 32-bit word. -/
def w32 (n : Nat) : Nat := n % 4294967296

/-- Rotate a 32-bit word right by `n`. -/
def rotr32 (n x : Nat) : Nat := w32 ((x >>> n) ||| (x <<< (32 - n)))

/-- The SHA-256 round constants (FIPS 180-4 section 4.2.2, in decimal). -/
def shaK : List Nat :=
  [1116352408, 1899447441, 3049323471, 3921009573, 961987163, 1508970993,
   2453635748, 2870763221, 3624381080, 310598401, 607225278, 1426881987,
   1925078388, 2162078206, 2614888103, 3248222580, 3835390401, 4022224774,
   264347078, 604807628, 770255983, 1249150122, 1555081692, 1996064986,
   2554220882, 2821834349, 2952996808, 3210313671, 3336571891, 3584528711,
   113926993, 338241895, 666307205, 773529912, 1294757372, 1396182291,
   1695183700, 1986661051, 2177026350, 2456956037, 2730485921, 2820302411,
   3259730800, 3345764771, 3516065817, 3600352804, 4094571909, 275423344,
   430227734, 506948616, 659060556, 883997877, 958139571, 1322822218,
   1537002063, 1747873779, 1955562222, 2024104815, 2227730452, 2361852424,
   2428436474, 2756734187, 3204031479, 3329325298]

/-- The SHA-256 initial hash state (FIPS 180-4 section 5.3.3, in decimal). -/
def shaH0 : List Nat :=
  [1779033703, 3144134277, 1013904242, 2773480762,
   1359893119, 2600822924, 528734635, 1541459225]

/-- Big-endian bytes of a 32-bit word. -/
def beBytes4 (w : Nat) : List Nat :=
  [w / 16777216 % 256, w / 65536 % 256, w / 256 % 256, w % 256]

/-- Big-endian bytes of the 64-bit message bit length. -/
def beBytes8 (n : Nat) : List Nat :=
  [n / 72057594037927936 % 256, n / 281474976710656 % 256, n / 1099511627776 % 256,
   n / 4294967296 % 256, n / 16777216 % 256, n / 65536 % 256, n / 256 % 256, n % 256]

/-- Group a byte list into big-endian 32-bit words. -/
def bytesToWords : List Nat → List Nat
  | b0 :: b1 :: b2 :: b3 :: rest => (((b0 * 256 + b1) * 256 + b2) * 256 + b3) :: bytesToWords rest
  | _ => []

/-- SHA-256 message padding: append `0x80`, zero bytes up to 56 mod 64,
then the bit length as 8 big-endian bytes. -/
def shaPad (msg : List Nat) : List Nat :=
  let k := (56 + 64 - (msg.length + 1) % 64) % 64
  msg ++ [128] ++ List.replicate k 0 ++ beBytes8 (msg.length * 8)

/-- Split a byte list into 64-byte blocks. -/
def chunks64 (l : List Nat) : List (List Nat) :=
  if h : l = [] then []
  else
    l.take 64 :: chunks64 (l.drop 64)
termination_by l.length
decreasing_by
  simp only [List.length_drop]
  have : l.length ≠ 0 := fun hl => h (List.eq_nil_of_length_eq_zero hl)
  omega

/-- Extend 16 message-schedule words to 64. -/
def schedule (ws : List Nat) : List Nat :=
  (List.range 48).foldl
    (fun w _ =>
      let n := w.length
      let x15 := w.getD (n - 15) 0
      let x2 := w.getD (n - 2) 0
      let s0 := w32 ((rotr32 7 x15) ^^^ (rotr32 18 x15) ^^^ (x15 >>> 3))
      let s1 := w32 ((rotr32 17 x2) ^^^ (rotr32 19 x2) ^^^ (x2 >>> 10))
      w ++ [w32 (w.getD (n - 16) 0 + s0 + w.getD (n - 7) 0 + s1)])
    ws

/-- One SHA-256 compression round. -/
def shaRound (st : List Nat) (wk : Nat × Nat) : List Nat :=
  let a := st.getD 0 0
  let b := st.getD 1 0
  let c := st.getD 2 0
  let d := st.getD 3 0
  let e := st.getD 4 0
  let f := st.getD 5 0
  let g := st.getD 6 0
  let hh := st.getD 7 0
  let s1 := w32 ((rotr32 6 e) ^^^ (rotr32 11 e) ^^^ (rotr32 25 e))
  let ch := w32 ((e &&& f) ^^^ ((4294967295 ^^^ e) &&& g))
  let t1 := w32 (hh + s1 + ch + wk.2 + wk.1)
  let s0 := w32 ((rotr32 2 a) ^^^ (rotr32 13 a) ^^^ (rotr32 22 a))
  let maj := w32 ((a &&& b) ^^^ (a &&& c) ^^^ (b &&& c))
  let t2 := w32 (s0 + maj)
  [w32 (t1 + t2), a, b, c, w32 (d + t1), e, f, g]

/-- Compress one 64-byte block into the running hash state. -/
def shaCompress (h : List Nat) (block : List Nat) : List Nat :=
  let ws := schedule (bytesToWords block)
  let st := (ws.zip shaK).foldl shaRound h
  List.zipWith (fun x y => w32 (x + y)) h st

/-- The SHA-256 digest (32 bytes) of a byte list. -/
def sha256 (msg : List Nat) : List Nat :=
  ((chunks64 (shaPad msg)).foldl shaCompress shaH0).foldr
    (fun w acc => beBytes4 w ++ acc) []

/-- A lowercase hexadecimal digit. -/
def hexChar (n : Nat) : Char :=
  "0123456789abcdef".data.getD n 'x'

/-- Lowercase hex rendering of a byte list (Go `%x` on `[]byte`). -/
def hexOfBytes (bs : List Nat) : String :=
  String.mk (bs.foldr (fun b acc => hexChar (b / 16) :: hexChar (b % 16) :: acc) [])

/-! ### `entity.go`: multi-op entities -/

/-- The UTF-8 bytes of a Go string, modelled as the code points of the
characters (UTF-8 byte order and code-point order agree, and only
injectivity and determinism of the encoding matter here). -/
def strBytes (s : String) : List Nat := s.data.map Char.toNat

/-- The order in which `opsByValue.Less` (`entity.go`) sorts operations:
by entity, then by action.  `sort.Sort` guarantees exactly that the output
is a permutation of the input that is sorted with respect to this
(total, antisymmetric) order, which determines it uniquely. -/
def opLE (a b : Op) : Prop :=
  a.entity.data < b.entity.data ∨ (a.entity = b.entity ∧ a.action.data ≤ b.action.data)

instance : DecidableRel opLE := fun a b => by
  unfold opLE; infer_instance

theorem stringDataEq {s t : String} (h : s.data = t.data) : s = t := by
  cases s; cases t; cases h; rfl

instance : IsTotal Op opLE where
  total a b := by
    rcases lt_trichotomy a.entity.data b.entity.data with h | h | h
    · exact Or.inl (Or.inl h)
    · rcases le_total a.action.data b.action.data with h2 | h2
      · exact Or.inl (Or.inr ⟨stringDataEq h, h2⟩)
      · exact Or.inr (Or.inr ⟨(stringDataEq h).symm, h2⟩)
    · exact Or.inr (Or.inl h)

instance : IsTrans Op opLE where
  trans a b c hab hbc := by
    rcases hab with h | ⟨h1, h2⟩ <;> rcases hbc with h3 | ⟨h4, h5⟩
    · exact Or.inl (h.trans h3)
    · exact Or.inl (h4 ▸ h)
    · exact Or.inl (h1 ▸ h3)
    · exact Or.inr ⟨h1.trans h4, h2.trans h5⟩

instance : IsAntisymm Op opLE where
  antisymm a b hab hba := by
    rcases hab with h | ⟨h1, h2⟩ <;> rcases hba with h3 | ⟨h4, h5⟩
    · exact absurd (h.trans h3) (lt_irrefl _)
    · exact absurd h (h4 ▸ lt_irrefl _)
    · exact absurd h3 (h1 ▸ lt_irrefl _)
    · cases a; cases b
      simp only [Op.mk.injEq]
      exact ⟨stringDataEq (le_antisymm h2 h5), h1⟩

/-- The in-place `sort.Sort(opsByValue(ops))` step: the sorted
rearrangement of `ops` under `opLE`. -/
def sortOps (ops : List Op) : List Op := List.insertionSort opLE ops

/-- The duplicate-skipping walk of the sorted operations in
`NewMultiOpEntity`: `prev` is the previously kept operation, and an
operation equal to it is skipped. -/
def dedupAdjAux (prev : Op) : List Op → List Op
  | [] => []
  | op :: rest => if op = prev then dedupAdjAux prev rest else op :: dedupAdjAux op rest

/-- The full duplicate-skipping walk: the first operation is always kept
(the Go loop guard is `i > 0 && op == prevOp`). -/
def dedupAdj : List Op → List Op
  | [] => []
  | op :: rest => op :: dedupAdjAux op rest

/-- The bytes contributed by one operation to the multi-op hash:
`action\nentity\n` (`entity.go`). -/
def opBytes (op : Op) : List Nat :=
  strBytes op.action ++ [10] ++ strBytes op.entity ++ [10]

/-- `NewMultiOpEntity` from `entity.go`, value level: sort the operations
by (entity, action), remove exact duplicates, hash the `action\nentity\n`
pairs with SHA-256 and return `multi-<hex digest>` together with the
deduplicated sorted operations. -/
def NewMultiOpEntity (ops : List Op) : String × List Op :=
  let ded := dedupAdj (sortOps ops)
  (multiOpPre ++ "-" ++ hexOfBytes (sha256 (ded.map opBytes).flatten), ded)

/-- The storage-level model of the `NewMultiOpEntity` loop for the
frame-effect claim: the caller's backing array starts as the in-place
sorted `ops`; iterating over it with read index `i`, kept operations are
compacted down to write index `j` (`ops[j] = op; j++`).  Reads always
happen at indexes at least as large as any prior write, so reading from
the immutable sorted list is faithful.  Returns the final backing array
contents and the length `j` of the returned prefix. -/
def mutLoop : List Op → Nat → List Op → Nat → Op → List Op × Nat
  | [], _, backing, j, _ => (backing, j)
  | op :: rest, i, backing, j, prev =>
    if 0 < i ∧ op = prev then mutLoop rest (i + 1) backing j prev
    else mutLoop rest (i + 1) (backing.set j op) (j + 1) op

/-- The caller-visible storage effect of `NewMultiOpEntity`: the backing
array after the call, and the length of the returned slice `ops[0:j]`
that aliases it. -/
def newMultiOpBacking (ops : List Op) : List Op × Nat :=
  let sorted := sortOps ops
  mutLoop sorted 0 sorted 0 ⟨"", ""⟩

/-! ### `auth.go`: the per-request authorizer

External collaborators (macaroon cryptography, stores, caveat checker,
identity service, clock) are fields of `Env`, mirroring the collaborator
interfaces of `Params`.  The per-request mutable state of `authorizer`
becomes the explicit `AState`. -/

/-- A macaroon, opaque to the authorizer beyond its id (`ms[0].Id()`). -/
structure Mac where
  id : String
deriving DecidableEq

/-- `checkers.Caveat`: a first-party condition, with a third-party
location when `location ≠ ""`. -/
structure Caveat where
  condition : String
  location : String
deriving DecidableEq

/-- Result of `bakery.Storage.Get`: the root key, `bakery.ErrNotFound`, or
another (hard) storage error. -/
inductive RootKeyResult where
  | found (key : List Nat)
  | notFound
  | fail
deriving DecidableEq

/-- The root key the Go code continues with: the key when found, the zero
value otherwise (the not-found branch falls through to verification). -/
def RootKeyResult.key : RootKeyResult → List Nat
  | .found k => k
  | _ => []

/-- Result of checking one first-party caveat condition
(`CheckFirstPartyCaveat`): success, `ErrCaveatResultUnknown`, or another
error. -/
inductive CheckResult where
  | ok
  | unknown
  | fail
deriving DecidableEq

/-- Result of `MultiOpStore.GetMultiOp`: the stored operations,
`ErrNotFound`, or another (hard) storage error. -/
inductive MultiOpResult where
  | found (ops : List Op)
  | notFound
  | fail
deriving DecidableEq

/-- The operations the Go code continues with: the stored set when found,
the zero value on not-found (that branch falls through to the empty
loop). -/
def MultiOpResult.ops : MultiOpResult → List Op
  | .found ops => ops
  | _ => []

/-- `checkers.Declared`: a map of declared attributes. -/
abbrev Declared := List (String × String)

/-- An authenticated user (`User` interface), identified opaquely. -/
abbrev User := Nat

/-- Result of `User.Allow`. -/
inductive AllowResult where
  | ok (allowed : Bool)
  | fail
deriving DecidableEq

/-- The external collaborators consumed by the authorizer, as in
`Params` (§6 of the specification): stores, verifier, caveat checker,
identity service, ACL source, and the clock/formatting used for minted
caveats. -/
structure Env where
  /-- `StoreForEntity(entity).Get(storageId)`. -/
  storeGet : String → String → RootKeyResult
  /-- `verifyIgnoringCaveats`: cryptographic verification of a slice
  against a root key, returning its caveat condition strings. -/
  verify : List Mac → List Nat → Option (List String)
  /-- `checkers.InferDeclaredFromConditions`. -/
  inferDeclared : List String → Declared
  /-- One `CheckFirstPartyCaveat` under the given declared attributes and
  allowed actions. -/
  check1 : Declared → List String → String → CheckResult
  /-- `MultiOpStore.GetMultiOp`. -/
  multiOpGet : String → MultiOpResult
  /-- `MultiOpStore.PutMultiOp` (`true` means success). -/
  putMultiOp : String → List Op → Bool
  /-- `IdentityService.DeclaredUser` (`none` means error). -/
  declaredUser : Declared → Option User
  /-- `User.Allow`. -/
  userAllow : User → ACL → AllowResult
  /-- `Params.GetACLs` (`none` means error). -/
  getACLs : List Op → Option (List ACL)
  /-- `StoreForEntity(entity).RootKey()`: a fresh root key and storage id. -/
  storeRootKey : String → Option (List Nat × String)
  /-- `IdentityService.IdentityCaveat(&key.Public)`. -/
  identityCaveat : Caveat
  /-- `bakery.AddCaveat` success for a caveat being minted. -/
  addCaveatOk : Caveat → Bool
  /-- RFC3339 formatting of a time (`checkers.TimeBeforeCaveat`). -/
  fmtTime : Int → String
  /-- `time.Now()`, in the abstract time scale. -/
  now : Int
  /-- `p.CapabilityLifetime`. -/
  capabilityLifetime : Int
  /-- `p.AuthenticationLifetime`. -/
  authenticationLifetime : Int

/-- The mutable per-request state of `authorizer`: the satisfied-vector
`ok`, the pending-conditions map (modelled as its insertion-ordered key
list), and the macaroon slices used. -/
structure AState where
  ok : List Bool
  pendingConditions : List String
  macaroons : List (List Mac)
deriving DecidableEq

/-- `authorizer.addPending` from `auth.go` (lines 819-829), verbatim
including its guard `if len(a.pendingConditions) == 0 { return }` on the
*map* rather than on the argument. -/
def addPending (st : AState) (conditions : List String) : AState :=
  if st.pendingConditions.length = 0 then st
  else
    { st with
      pendingConditions :=
        conditions.foldl (fun m c => if c ∈ m then m else m ++ [c]) st.pendingConditions }

/-- `authorizer.addAuthorizedMacaroon`: record the used slice and its
pending conditions. -/
def addAuthorizedMacaroon (st : AState) (ms : List Mac) (pending : List String) : AState :=
  addPending { st with macaroons := st.macaroons ++ [ms] } pending

/-- `splitMacaroonId`: `entityName [' ' storageId]`; with no space both
components are the whole id. -/
def splitMacaroonId (id : String) : String × String :=
  match splitAtSpace id.data with
  | none => (id, id)
  | some (a, b) => (String.mk a, String.mk b)

/-- The condition-checking loop of `Checker.checkConditions`: accumulate
conditions whose result is `ErrCaveatResultUnknown`, fail on any other
error. -/
def checkCondsGo (env : Env) (declared : Declared) (actions : List String) :
    List String → List String → Option (List String)
  | [], pending => some pending
  | cond :: rest, pending =>
    match env.check1 declared actions cond with
    | .ok => checkCondsGo env declared actions rest pending
    | .unknown => checkCondsGo env declared actions rest (pending ++ [cond])
    | .fail => none

/-- `Checker.checkConditions`: infer declarations, then check every
condition under the declared attributes and allowed actions. -/
def checkConditions (env : Env) (conditions : List String) (actions : List String) :
    Option (Declared × List String) :=
  let declared := env.inferDeclared conditions
  match checkCondsGo env declared actions conditions [] with
  | none => none
  | some pending => some (declared, pending)

/-- `actionsForOps`. -/
def actionsForOps (ops : List Op) : List String := ops.map (·.action)

/-- The operation loop of `checkAuthzMacaroon` (`for i, op := range a.ops`):
try to satisfy each not-yet-authorized operation with the verified
conditions.  `none` models the hard multi-op-store error return. -/
def authzOpsLoop (env : Env) (ms : List Mac) (entityName : String) (conditions : List String) :
    Nat → List Op → AState → Option AState
  | _, [], st => some st
  | i, op :: rest, st =>
    if st.ok.getD i false then authzOpsLoop env ms entityName conditions (i + 1) rest st
    else
      match checkConditions env conditions [op.action] with
      | none => authzOpsLoop env ms entityName conditions (i + 1) rest st
      | some (_declared, pending) =>
        if entityName = op.entity then
          authzOpsLoop env ms entityName conditions (i + 1) rest
            (addAuthorizedMacaroon { st with ok := st.ok.set i true } ms pending)
        else if ¬ hasPre multiOpPre entityName then
          authzOpsLoop env ms entityName conditions (i + 1) rest st
        else
          match env.multiOpGet entityName with
          | .fail => none
          | r =>
            if op ∈ r.ops then
              authzOpsLoop env ms entityName conditions (i + 1) rest
                (addAuthorizedMacaroon { st with ok := st.ok.set i true } ms pending)
            else authzOpsLoop env ms entityName conditions (i + 1) rest st

/-- `authorizer.checkAuthzMacaroon` (`auth.go` lines 452-519): `none`
models the hard storage-error return, `some st` a normal return with the
updated state. -/
def checkAuthzMacaroon (env : Env) (ops : List Op) (st : AState) (ms : List Mac) :
    Option AState :=
  match ms with
  | [] => some st
  | m0 :: _ =>
    let es := splitMacaroonId m0.id
    if es.1 = LoginEntity then some st
    else
      match env.storeGet es.1 es.2 with
      | .fail => none
      | r =>
        match env.verify ms r.key with
        | none => some st
        | some conditions => authzOpsLoop env ms es.1 conditions 0 ops st

/-- Result of `checkAuthnMacaroon`: success, a `*verificationError`
(recoverable: the next candidate is tried), or a hard storage error. -/
inductive AuthnResult where
  | ok (user : User) (pending : List String)
  | verificationError
  | hard
deriving DecidableEq

/-- `authorizer.checkAuthnMacaroon` (`auth.go` lines 526-564): a login
slice is usable for authentication only if its conditions check out for
*every* action of the requested operations and the declared user can be
decoded. -/
def checkAuthnMacaroon (env : Env) (ops : List Op) (ms : List Mac) : AuthnResult :=
  match ms with
  | [] => .verificationError
  | m0 :: _ =>
    let es := splitMacaroonId m0.id
    if es.1 ≠ LoginEntity then .verificationError
    else
      match env.storeGet es.1 es.2 with
      | .fail => .hard
      | r =>
        match env.verify ms r.key with
        | none => .verificationError
        | some conditions =>
          match checkConditions env conditions (actionsForOps ops) with
          | none => .verificationError
          | some (declared, pending) =>
            match env.declaredUser declared with
            | none => .verificationError
            | some user => .ok user pending

/-- The first loop of `authorizer.authorize`: run `checkAuthzMacaroon`
over every presented slice, aborting on a hard error. -/
def authzPhase (env : Env) (ops : List Op) : List (List Mac) → AState → Option AState
  | [], st => some st
  | ms :: rest, st =>
    match checkAuthzMacaroon env ops st ms with
    | none => none
    | some st2 => authzPhase env ops rest st2

/-- The second loop of `authorizer.authorize`: find the first slice usable
for authentication; verification errors skip to the next candidate, hard
errors abort (`none`). -/
def authnLoop (env : Env) (ops : List Op) : List (List Mac) → AState → Option (Option User × AState)
  | [], st => some (none, st)
  | ms :: rest, st =>
    match checkAuthnMacaroon env ops ms with
    | .hard => none
    | .verificationError => authnLoop env ops rest st
    | .ok user pending => some (some user, addAuthorizedMacaroon st ms pending)

/-- A macaroon minted by `authorizer.newMacaroon`: the target entity, the
constructed id, the pending conditions added as first-party caveats, and
the requested caveats. -/
structure Minted where
  entity : String
  id : String
  pendingCaveats : List String
  caveats : List Caveat
deriving DecidableEq

/-- The errors an authorize call can end with: hard (masked storage or
collaborator) errors, `"permission denied"`, or a
`DischargeRequiredError` with its message, `Authenticator` flag and
minted macaroon. -/
inductive AuthError where
  | hard
  | permissionDenied
  | discharge (message : String) (authenticator : Bool) (m : Minted)
deriving DecidableEq

/-- `authorizer.newMacaroon`: obtain a fresh root key for the entity,
build the id (`entity [SP storageId]`, collapsed when equal), add the
pending conditions as first-party caveats and then the requested caveats
(`bakery.AddCaveat` may fail). -/
def newMacaroon (env : Env) (st : AState) (entity : String) (caveats : List Caveat) :
    Option Minted :=
  match env.storeRootKey entity with
  | none => none
  | some (_rootKey, storageId) =>
    let id := if storageId = entity then storageId else entity ++ " " ++ storageId
    if caveats.all env.addCaveatOk then
      some { entity := entity, id := id, pendingCaveats := st.pendingConditions,
             caveats := caveats }
    else none

/-- `checkers.TimeBeforeCaveat`. -/
def timeBeforeCaveat (env : Env) (t : Int) : Caveat :=
  ⟨"time-before " ++ env.fmtTime t, ""⟩

/-- `checkers.AllowCaveat`. -/
def allowCaveat (actions : List String) : Caveat :=
  ⟨"allow " ++ joinSpace actions, ""⟩

/-- The shared-entity scan of `authorizer.authzEntity`: `""` when the
operations span more than one entity. -/
def sharedEntity : String → List Op → String
  | e, [] => e
  | e, op :: rest => if op.entity ≠ e then "" else sharedEntity e rest

/-- `authorizer.authzEntity`: the entity (and allowed actions) a new
authz macaroon should target; for multiple entities, a multi-op entity is
created and persisted (`none` models the store error). -/
def authzEntity (env : Env) (ops : List Op) : Option (String × List String) :=
  let e := sharedEntity (ops.headD ⟨"", ""⟩).entity ops.tail
  if e ≠ "" then some (e, ops.map (·.action))
  else
    let ent := NewMultiOpEntity ops
    if env.putMultiOp ent.1 ent.2 then some (ent.1, []) else none

/-- `authorizer.newAuthzMacaroon`: mint a macaroon authorizing all the
requested operations, appending the authorizer caveats when
`needCaveats`, then the capability expiry, then the allowed actions. -/
def newAuthzMacaroon (env : Env) (ops : List Op) (caveats : List Caveat) (st : AState)
    (needCaveats : Bool) : Option Minted :=
  match authzEntity env ops with
  | none => none
  | some (entity, actions) =>
    let cavs := (if needCaveats then caveats else []) ++
      [timeBeforeCaveat env (env.now + env.capabilityLifetime)] ++
      (if actions.isEmpty then [] else [allowCaveat actions])
    newMacaroon env st entity cavs

/-- `authorizer.newAuthnDischargeRequiredError`: mint an authentication
macaroon (identity caveat plus authentication expiry) and wrap it as a
discharge-required error; minting failure is a hard error. -/
def newAuthnDRE (env : Env) (st : AState) : AuthError :=
  match newMacaroon env st LoginEntity
      [env.identityCaveat, timeBeforeCaveat env (env.now + env.authenticationLifetime)] with
  | none => .hard
  | some m => .discharge "login required" true m

/-- `authorizer.newAuthzDischargeRequiredError` (`auth.go` lines 670-680):
mint an authz macaroon carrying the authorizer caveats and wrap it as a
discharge-required error.  The source sets `Authenticator: true` here. -/
def newAuthzDRE (env : Env) (ops : List Op) (caveats : List Caveat) (st : AState) : AuthError :=
  match newAuthzMacaroon env ops caveats st true with
  | none => .hard
  | some m => .discharge "further authorization required" true m

/-- `needOps` as computed by `authorizeWhenAuthenticated`: the requested
operations not yet satisfied, in request order. -/
def needOpsAux (ok : List Bool) : Nat → List Op → List Op
  | _, [] => []
  | i, op :: rest =>
    if ok.getD i false then needOpsAux ok (i + 1) rest
    else op :: needOpsAux ok (i + 1) rest

/-- The unsatisfied operations, in request order. -/
def needOpsOf (ops : List Op) (ok : List Bool) : List Op := needOpsAux ok 0 ops

/-- The ACL loop of `authorizeWhenAuthenticated`: public access without a
user, `User.Allow` with one; the first denial ends the call with
permission-denied (authenticated) or an authentication challenge
(anonymous).  `none` means the loop completed. -/
def aclLoop (env : Env) (user : Option User) (st : AState) : List ACL → Option AuthError
  | [] => none
  | acl :: rest =>
    match user with
    | none =>
      if aclIsPublic acl then aclLoop env user st rest
      else some (newAuthnDRE env st)
    | some u =>
      match env.userAllow u acl with
      | .fail => some .hard
      | .ok true => aclLoop env user st rest
      | .ok false => some .permissionDenied

/-- `authorizer.authorizeWhenAuthenticated` (`auth.go` lines 580-649):
fetch ACLs for exactly the unsatisfied operations, check them, then
handle the extra caveats — a third-party caveat forces a fresh authz
macaroon, otherwise the caveats are checked as first-party conditions. -/
def authorizeWhenAuthenticated (env : Env) (ops : List Op) (caveats : List Caveat)
    (user : Option User) (st : AState) : Except AuthError AState :=
  match env.getACLs (needOpsOf ops st.ok) with
  | none => .error .hard
  | some acls =>
    match aclLoop env user st acls with
    | some e => .error e
    | none =>
      if caveats.isEmpty then .ok st
      else if caveats.any (fun cav => decide (cav.location ≠ "")) then
        .error (newAuthzDRE env ops caveats st)
      else
        match checkConditions env (caveats.map (·.condition)) (actionsForOps ops) with
        | none => .error .hard
        | some p => .ok (addPending st p.2)

/-- `allTrue`. -/
def allTrue (l : List Bool) : Bool := l.all id

/-- The result of a successful authorization (`AuthInfo`). -/
structure AuthInfo where
  pendingConditions : List String
  user : Option User
  macaroons : List (List Mac)
deriving DecidableEq

/-- The two macaroon-classification phases of `authorizer.authorize`: the
authz loop over all slices, then the authn loop; `none` is a hard
error. -/
def phasesState (env : Env) (ops : List Op) (mss : List (List Mac)) :
    Option (Option User × AState) :=
  match authzPhase env ops mss ⟨List.replicate ops.length false, [], []⟩ with
  | none => none
  | some st => authnLoop env ops mss st

/-- `authorizer.authorize` (`auth.go` lines 404-443), also returning the
final authorizer state (used by `Capability`): classify macaroons, fall
back to ACL authorization when operations remain, and return the sorted
pending conditions with the used macaroons and user. -/
def authorizeSt (env : Env) (ops : List Op) (caveats : List Caveat) (mss : List (List Mac)) :
    Except AuthError (AuthInfo × AState) :=
  match phasesState env ops mss with
  | none => .error .hard
  | some us =>
    match (if allTrue us.2.ok then Except.ok us.2
           else authorizeWhenAuthenticated env ops caveats us.1 us.2) with
    | .error e => .error e
    | .ok st3 =>
      .ok ({ pendingConditions := sortStrings st3.pendingConditions,
             user := us.1, macaroons := st3.macaroons }, st3)

/-- `authorizer.authorize`, result only. -/
def authorize (env : Env) (ops : List Op) (caveats : List Caveat) (mss : List (List Mac)) :
    Except AuthError AuthInfo :=
  (authorizeSt env ops caveats mss).map (·.1)

/-- `Checker.Authorize`: `newAuthorizer` rejects an empty operation list,
then `authorize` runs. -/
def checkerAuthorize (env : Env) (ops : List Op) (caveats : List Caveat)
    (mss : List (List Mac)) : Except AuthError AuthInfo :=
  if ops.isEmpty then .error .hard
  else authorize env ops caveats mss

/-- `Checker.Capability`: authorize, then mint the equivalent authz
capability (without re-adding the authorizer caveats: they were already
checked). -/
def capability (env : Env) (ops : List Op) (caveats : List Caveat) (mss : List (List Mac)) :
    Except AuthError (Minted × AuthInfo) :=
  if ops.isEmpty then .error .hard
  else
    match authorizeSt env ops caveats mss with
    | .error e => .error e
    | .ok ist =>
      match newAuthzMacaroon env ops caveats ist.2 false with
      | none => .error .hard
      | some m => .ok (m, ist.1)

/-- Whether a slice is an authentication candidate: its primary id names
`LoginEntity`. -/
def isAuthnSlice : List Mac → Bool
  | [] => false
  | m0 :: _ => decide ((splitMacaroonId m0.id).1 = LoginEntity)

/-- The specification-side description of authentication-token selection
(§4.1 step 2 of the specification): the first presented slice accepted by
`checkAuthnMacaroon` supplies the user; later candidates are ignored. -/
def firstAuthnUser (env : Env) (ops : List Op) : List (List Mac) → Option User
  | [] => none
  | ms :: rest =>
    match checkAuthnMacaroon env ops ms with
    | .ok user _ => some user
    | _ => firstAuthnUser env ops rest

/-- A concrete base environment used to evaluate the model on closed
inputs (a root-key store holding one key, trivially succeeding
collaborators, public ACLs). -/
def envA : Env where
  storeGet := fun _ _ => .found [1]
  verify := fun _ _ => some []
  inferDeclared := fun _ => []
  check1 := fun _ _ _ => .ok
  multiOpGet := fun _ => .notFound
  putMultiOp := fun _ _ => true
  declaredUser := fun _ => some 7
  userAllow := fun _ _ => .ok true
  getACLs := fun ops => some (ops.map (fun _ => [Everyone]))
  storeRootKey := fun _ => some ([2], "sid")
  identityCaveat := ⟨"identity", "idm"⟩
  addCaveatOk := fun _ => true
  fmtTime := fun _ => "T"
  now := 0
  capabilityLifetime := 1
  authenticationLifetime := 2

end Auth

namespace AuthV2

/-!
### The second-generation `auth` package embedded in `bug/bug1/main.go`

Its `Op` and caveat types mirror the first package; its authorizer works
from pre-verified per-macaroon condition lists (`Authorizer.init`), an
operation index (`authIndexes`) and an optional authenticated identity.
The `time` package is abstracted to an arbitrary decidable linear order
`T`: `time.Parse(RFC3339Nano, ·)` becomes `parseTime` (returning `none`
on a parse error or a zero time, the two cases `add0` treats alike) and
formatting becomes `fmtTime`.
-/

/-- `Op` of the embedded package. -/
structure Op where
  action : String
  entity : String
deriving DecidableEq

/-- `LoginOp = Op{Entity: "login", Action: "login"}`. -/
def LoginOp : Op := ⟨"login", "login"⟩

/-- `checkers.Caveat` as used by this package. -/
structure Caveat where
  condition : String
  location : String
deriving DecidableEq

/-- `checkers.CondTimeBefore`. -/
def condTimeBefore : String := "time-before"

/-- `checkers.CondAllow`. -/
def condAllow : String := "allow"

/-- `checkers.CondDeny`. -/
def condDeny : String := "deny"

/-- `checkers.CondDeclared`. -/
def condDeclared : String := "declared"

/-- `checkers.ParseCaveat`: split a condition into name and argument at
the first space; empty conditions and conditions starting with a space
are errors. -/
def parseCaveat (cav : String) : Option (String × String) :=
  if cav = "" then none
  else
    match splitAtSpace cav.data with
    | none => some (cav, "")
    | some ([], _) => none
    | some (a, b) => some (String.mk a, String.mk b)

/-- The `caveatSquasher` state: the earliest expiry seen so far (Go uses
the zero `time.Time` as the not-yet-set sentinel, modelled as `none`;
`add0` never stores a zero time) and the kept conditions.  The unused
`prev` field of the Go struct is omitted. -/
structure CaveatSquasher (T : Type) where
  expiry : Option T
  conds : List String

/-- `caveatSquasher.add0` (`bug/bug1/main.go` lines 647-670): returns
whether the condition is to be kept verbatim, updating the earliest
expiry for parseable non-zero `time-before` conditions and dropping
`allow`/`deny`/`declared` conditions. -/
def squasherAdd0 {T : Type} [LinearOrder T] (parseTime : String → Option T)
    (c : CaveatSquasher T) (cond : String) : Bool × CaveatSquasher T :=
  match parseCaveat cond with
  | none => (true, c)
  | some na =>
    if na.1 = condTimeBefore then
      match parseTime na.2 with
      | none => (true, c)
      | some et =>
        match c.expiry with
        | none => (false, { c with expiry := some et })
        | some e => if et < e then (false, { c with expiry := some et }) else (false, c)
    else if na.1 = condAllow ∨ na.1 = condDeny ∨ na.1 = condDeclared then (false, c)
    else (true, c)

/-- `caveatSquasher.add` (lines 614-624): skip conditions already kept,
otherwise run `add0` and append when it keeps the condition. -/
def squasherAdd {T : Type} [LinearOrder T] (parseTime : String → Option T)
    (c : CaveatSquasher T) (cond : String) : CaveatSquasher T :=
  if cond ∈ c.conds then c
  else
    let kc := squasherAdd0 parseTime c cond
    if kc.1 then { kc.2 with conds := kc.2.conds ++ [cond] } else kc.2

/-- The in-place compaction loop of `caveatSquasher.final`: walk the
sorted conditions, writing each condition different from the previous one
at write index `j`.  The function returns the whole backing array, as the
source does. -/
def finalLoop : List String → List String → String → Nat → List String
  | [], conds, _, _ => conds
  | cond :: rest, conds, prev, j =>
    if cond ≠ prev then finalLoop rest (conds.set j cond) cond (j + 1)
    else finalLoop rest conds prev j

/-- `caveatSquasher.final` (lines 626-645): append the earliest expiry as
a single `time-before` condition, then sort and compact. -/
def squasherFinal {T : Type} [LinearOrder T] (fmtTime : T → String)
    (c : CaveatSquasher T) : List String :=
  let conds :=
    match c.expiry with
    | none => c.conds
    | some e => c.conds ++ [condTimeBefore ++ " " ++ fmtTime e]
  if conds.isEmpty then []
  else
    let s := sortStrings conds
    finalLoop s.tail s (s.headD "") 1

/-- Running the squasher over a sequence of added conditions, from the
zero `caveatSquasher` value. -/
def runSquasher {T : Type} [LinearOrder T] (parseTime : String → Option T)
    (l : List String) : CaveatSquasher T :=
  l.foldl (squasherAdd parseTime) ⟨none, []⟩

/-- Whether a condition is of kind `time-before`. -/
def isTBCond (c : String) : Bool :=
  match parseCaveat c with
  | some na => decide (na.1 = condTimeBefore)
  | none => false

/-- Whether `add`/`add0` keeps a condition verbatim; the decision depends
only on the condition string. -/
def keepFn {T : Type} (parseTime : String → Option T) (cond : String) : Bool :=
  match parseCaveat cond with
  | none => true
  | some na =>
    if na.1 = condTimeBefore then (parseTime na.2).isNone
    else ¬ (na.1 = condAllow ∨ na.1 = condDeny ∨ na.1 = condDeclared)

/-- The time carried by a parseable non-zero `time-before` condition. -/
def tbTime {T : Type} (parseTime : String → Option T) (cond : String) : Option T :=
  match parseCaveat cond with
  | none => none
  | some na => if na.1 = condTimeBefore then parseTime na.2 else none

/-!
### `Authorizer.allowAny` of the embedded package

The post-`init` authorizer state (`AZ`) carries the per-macaroon verified
condition lists, the operation index and the authenticated identity; the
collaborators (`checkConditions` success, `UserChecker.Allow`,
`IdentityService.IdentityCaveats`) form `Env2`.
-/

/-- An authenticated identity of the embedded package, opaque. -/
abbrev Identity := Nat

/-- Result of `UserChecker.Allow`. -/
inductive UserAllowRes where
  | ok (allowed : List Bool) (caveats : List Caveat)
  | fail
deriving DecidableEq

/-- The authorizer state after `init`. -/
structure AZ where
  /-- `a.conditions`: the first-party conditions of each presented
  macaroon slice, aligned with the slice list. -/
  conds : List (List String)
  /-- `a.authIndexes`: for each operation, the indexes of the macaroons
  that may authorize it. -/
  authIndexes : Op → List Nat
  /-- `a.identity`. -/
  identity : Option Identity

/-- The collaborators used by `allowAny`. -/
structure Env2 where
  /-- Success of `a.checkConditions(ctxt, op, conds)`. -/
  checkOK : Op → List String → Bool
  /-- `UserChecker.Allow`. -/
  userAllow : Option Identity → List Op → UserAllowRes
  /-- `IdentityService.IdentityCaveats`. -/
  identityCaveats : List Caveat

/-- `DischargeRequiredError` of the embedded package. -/
structure DischargeRequired2 where
  message : String
  ops : List Op
  caveats : List Caveat
deriving DecidableEq

/-- The errors `allowAny` can report. -/
inductive AllowErr2 where
  | hard
  | permissionDenied
  | discharge (e : DischargeRequired2)
deriving DecidableEq

/-- The first loop of `allowAny` (`bug/bug1/main.go` lines 477-495):
macaroon-based authorization per operation.  `LoginOp` is skipped when
combined with other operations; otherwise the first macaroon whose
conditions check out marks the operation authorized and is marked used. -/
def macLoopGo (a : AZ) (env : Env2) (nops : Nat) :
    Nat → List Op → List Bool → List Bool → List Bool × List Bool
  | _, [], authed, used => (authed, used)
  | i, op :: rest, authed, used =>
    if op = LoginOp ∧ 1 < nops then macLoopGo a env nops (i + 1) rest authed used
    else
      match (a.authIndexes op).find? (fun m => env.checkOK op (a.conds.getD m [])) with
      | none => macLoopGo a env nops (i + 1) rest authed used
      | some m => macLoopGo a env nops (i + 1) rest (authed.set i true) (used.set m true)

/-- The macaroon phase of `allowAny`, from freshly allocated vectors. -/
def macPhase (a : AZ) (env : Env2) (ops : List Op) : List Bool × List Bool :=
  macLoopGo a env ops.length 0 ops (List.replicate ops.length false)
    (List.replicate a.conds.length false)

/-- The `need`/`needIndex` built by `allowAny`: the positions and values
of the operations not authorized by macaroons, in request order. -/
def needPairs (ops : List Op) (authed : List Bool) : List (Nat × Op) :=
  ops.enum.filter (fun p => ! authed.getD p.1 false)

/-- The update loop over `UserChecker.Allow`'s answers (lines 535-541):
allowed operations are marked in `authed` at their original positions,
denied ones are collected into `stillNeed`. -/
def applyOks : List (Nat × Op) → List Bool → List Bool → List Bool × List Op
  | [], _, authed => (authed, [])
  | _ :: _, [], authed => (authed, [])
  | p :: pairs, ok :: oks, authed =>
    if ok then applyOks pairs oks (authed.set p.1 true)
    else
      let r := applyOks pairs oks authed
      (r.1, p.2 :: r.2)

/-- `Authorizer.allowAny` (`bug/bug1/main.go` lines 469-563).  `none`
models the `panic` on a missing login-macaroon index; otherwise the
per-operation authorized vector, the used-macaroon vector and the
error (if any) are returned.  On full macaroon-phase success the
authorized vector is returned as `nil` (`[]`), as in the source. -/
def allowAny (a : AZ) (env : Env2) (ops : List Op) :
    Option (List Bool × List Bool × Option AllowErr2) :=
  let au := macPhase a env ops
  let authed := au.1
  let usedRes : Option (List Bool) :=
    match a.identity with
    | none => some au.2
    | some _ =>
      match a.authIndexes LoginOp with
      | [] => none
      | idx :: _ => some (au.2.set idx true)
  match usedRes with
  | none => none
  | some used =>
    if authed.count true = ops.length then some ([], used, none)
    else
      let pairs := needPairs ops authed
      let need := pairs.map Prod.snd
      match env.userAllow a.identity need with
      | .fail => some (authed, used, some .hard)
      | .ok oks caveats =>
        if oks.length ≠ need.length then some (authed, used, some .hard)
        else
          let r := applyOks pairs oks authed
          if r.2.isEmpty ∧ caveats.isEmpty then some (r.1, used, none)
          else
            match a.identity with
            | none =>
              some (r.1, used,
                some (.discharge ⟨"authentication required", [LoginOp], env.identityCaveats⟩))
            | some _ =>
              if caveats.isEmpty then some (r.1, used, some .permissionDenied)
              else
                some (r.1, used,
                  some (.discharge ⟨"some operations have extra caveats", ops, caveats⟩))

end AuthV2

/-! ## Theorems -/

namespace Auth

theorem sortOps_perm (ops : List Op) : List.Perm (sortOps ops) ops :=
  List.perm_insertionSort _ _

theorem sortOps_sorted (ops : List Op) : (sortOps ops).Sorted opLE :=
  List.sorted_insertionSort _ _

theorem sortOps_congr {a b : List Op} (h : List.Perm a b) : sortOps a = sortOps b :=
  List.eq_of_perm_of_sorted ((sortOps_perm a).trans (h.trans (sortOps_perm b).symm))
    (sortOps_sorted a) (sortOps_sorted b)

theorem dedupAdjAux_sublist (prev : Op) (l : List Op) :
    List.Sublist (dedupAdjAux prev l) l := by
  induction l generalizing prev with
  | nil => simp [dedupAdjAux]
  | cons op rest ih =>
    simp only [dedupAdjAux]
    by_cases h : op = prev
    · simp only [if_pos h]
      exact (ih prev).cons _
    · simp only [if_neg h]
      exact (ih op).cons₂ _

theorem mem_dedupAdjAux_of_mem {x : Op} {l : List Op} (prev : Op) (h : x ∈ l) :
    x ∈ dedupAdjAux prev l ∨ x = prev := by
  induction l generalizing prev with
  | nil => cases h
  | cons op rest ih =>
    simp only [dedupAdjAux]
    by_cases hop : op = prev
    · simp only [if_pos hop]
      rcases List.mem_cons.mp h with rfl | hx
      · exact Or.inr hop
      · exact ih prev hx
    · simp only [if_neg hop]
      rcases List.mem_cons.mp h with rfl | hx
      · exact Or.inl (List.mem_cons_self _ _)
      · rcases ih op hx with h2 | rfl
        · exact Or.inl (List.mem_cons_of_mem _ h2)
        · exact Or.inl (List.mem_cons_self _ _)

theorem dedupAdjAux_strict (l : List Op) : ∀ prev, l.Sorted opLE → (∀ y ∈ l, opLE prev y) →
    (dedupAdjAux prev l).Pairwise (fun a b => opLE a b ∧ a ≠ b) ∧
    (∀ y ∈ dedupAdjAux prev l, opLE prev y ∧ prev ≠ y) := by
  induction l with
  | nil => intro prev _ _; exact ⟨List.Pairwise.nil, by simp [dedupAdjAux]⟩
  | cons op rest ih =>
    intro prev hsorted hbound
    have hrest : rest.Sorted opLE := (List.sorted_cons.mp hsorted).2
    have hop : ∀ y ∈ rest, opLE op y := (List.sorted_cons.mp hsorted).1
    simp only [dedupAdjAux]
    by_cases h : op = prev
    · simp only [if_pos h]
      refine ih prev hrest ?_
      intro y hy
      exact h ▸ hop y hy
    · simp only [if_neg h]
      have hprevop : opLE prev op := hbound op (List.mem_cons_self _ _)
      obtain ⟨hpw, hbd⟩ := ih op hrest hop
      constructor
      · exact List.pairwise_cons.mpr ⟨fun y hy => ⟨(hbd y hy).1, fun he => (hbd y hy).2 he⟩, hpw⟩
      · intro y hy
        rcases List.mem_cons.mp hy with rfl | hy2
        · exact ⟨hprevop, fun he => h he.symm⟩
        · obtain ⟨hle, hne⟩ := hbd y hy2
          refine ⟨Trans.trans hprevop hle, ?_⟩
          rintro rfl
          exact h (antisymm hle hprevop)

theorem dedupAdj_sorted (l : List Op) (h : l.Sorted opLE) : (dedupAdj l).Sorted opLE := by
  cases l with
  | nil => simp [dedupAdj]
  | cons op rest =>
    have hrest : rest.Sorted opLE := (List.sorted_cons.mp h).2
    have hop : ∀ y ∈ rest, opLE op y := (List.sorted_cons.mp h).1
    obtain ⟨hpw, hbd⟩ := dedupAdjAux_strict rest op hrest hop
    exact List.sorted_cons.mpr ⟨fun y hy => (hbd y hy).1, hpw.imp (fun h2 => h2.1)⟩

theorem dedupAdj_nodup (l : List Op) (h : l.Sorted opLE) : (dedupAdj l).Nodup := by
  cases l with
  | nil => simp [dedupAdj]
  | cons op rest =>
    have hrest : rest.Sorted opLE := (List.sorted_cons.mp h).2
    have hop : ∀ y ∈ rest, opLE op y := (List.sorted_cons.mp h).1
    obtain ⟨hpw, hbd⟩ := dedupAdjAux_strict rest op hrest hop
    exact List.pairwise_cons.mpr ⟨fun y hy => (hbd y hy).2, hpw.imp (fun h2 => h2.2)⟩

theorem mem_dedupAdj {x : Op} {l : List Op} : x ∈ dedupAdj l ↔ x ∈ l := by
  cases l with
  | nil => simp [dedupAdj]
  | cons op rest =>
    simp only [dedupAdj, List.mem_cons]
    constructor
    · rintro (rfl | hx)
      · exact Or.inl rfl
      · exact Or.inr ((dedupAdjAux_sublist op rest).subset hx)
    · rintro (rfl | hx)
      · exact Or.inl rfl
      · rcases mem_dedupAdjAux_of_mem op hx with h2 | rfl
        · exact Or.inr h2
        · exact Or.inl rfl

/-- C6: for every finite operation list and every permutation of it
(duplicates included), `NewMultiOpEntity` returns the same canonical name
of the form `multi-<hex sha256 digest>` and the same operation list,
sorted by (entity, action) with exact duplicates removed. -/
theorem newMultiOpEntity_deterministic (ops1 ops2 : List Op) (h : List.Perm ops1 ops2) :
    NewMultiOpEntity ops1 = NewMultiOpEntity ops2 ∧
    (NewMultiOpEntity ops1).1 =
      multiOpPre ++ "-" ++ hexOfBytes (sha256 ((NewMultiOpEntity ops1).2.map opBytes).flatten) ∧
    ((NewMultiOpEntity ops1).2).Sorted opLE ∧
    ((NewMultiOpEntity ops1).2).Nodup ∧
    (∀ op, op ∈ (NewMultiOpEntity ops1).2 ↔ op ∈ ops1) := by
  refine ⟨?_, rfl, ?_, ?_, ?_⟩
  · simp only [NewMultiOpEntity, sortOps_congr h]
  · exact dedupAdj_sorted _ (sortOps_sorted ops1)
  · exact dedupAdj_nodup _ (sortOps_sorted ops1)
  · intro op
    exact mem_dedupAdj.trans (sortOps_perm ops1).mem_iff

theorem newMultiOpEntity_deterministic_witness :
    List.Perm [Op.mk "read" "e2", Op.mk "read" "e1", Op.mk "read" "e1"]
      [Op.mk "read" "e1", Op.mk "read" "e2", Op.mk "read" "e1"] ∧
    NewMultiOpEntity [Op.mk "read" "e2", Op.mk "read" "e1", Op.mk "read" "e1"] =
      NewMultiOpEntity [Op.mk "read" "e1", Op.mk "read" "e2", Op.mk "read" "e1"] :=
  ⟨by decide,
   (newMultiOpEntity_deterministic _ _ (by decide)).1⟩

theorem dedupAdj_sublist (l : List Op) : List.Sublist (dedupAdj l) l := by
  cases l with
  | nil => simp [dedupAdj]
  | cons op rest => exact (dedupAdjAux_sublist op rest).cons₂ _

theorem takeSetSucc (backing : List Op) (j : Nat) (op : Op) (h : j < backing.length) :
    (backing.set j op).take (j + 1) = backing.take j ++ [op] := by
  rw [List.set_eq_take_append_cons_drop, if_pos h,
    List.take_append_eq_append_take, List.take_take]
  have hlen : (backing.take j).length = j := by
    rw [List.length_take]; omega
  rw [hlen]
  simp

theorem dropSetHigh (backing : List Op) (j m : Nat) (op : Op) (h : j < backing.length) :
    (backing.set j op).drop (j + 1 + m) = backing.drop (j + 1 + m) := by
  rw [List.set_eq_take_append_cons_drop, if_pos h, List.drop_append_eq_append_drop]
  have hlen : (backing.take j).length = j := by
    rw [List.length_take]; omega
  rw [List.drop_eq_nil_of_le (by omega), hlen]
  have h2 : j + 1 + m - j = m + 1 := by omega
  rw [h2]
  simp only [List.nil_append, List.drop_succ_cons]
  rw [List.drop_drop]

theorem mutLoop_spec (reads : List Op) : ∀ (i j : Nat) (backing : List Op) (prev : Op),
    0 < i → j + reads.length ≤ backing.length →
    mutLoop reads i backing j prev =
      (backing.take j ++ dedupAdjAux prev reads ++
        backing.drop (j + (dedupAdjAux prev reads).length),
       j + (dedupAdjAux prev reads).length) := by
  induction reads with
  | nil =>
    intro i j backing prev hi hlen
    simp [mutLoop, dedupAdjAux, List.take_append_drop]
  | cons op rest ih =>
    intro i j backing prev hi hlen
    simp only [List.length_cons] at hlen
    simp only [mutLoop, dedupAdjAux]
    by_cases h : op = prev
    · rw [if_pos ⟨hi, h⟩, if_pos h]
      exact ih (i + 1) j backing prev (by omega) (by omega)
    · have hg : ¬ (0 < i ∧ op = prev) := fun hc => h hc.2
      rw [if_neg hg, if_neg h]
      have hjlt : j < backing.length := by omega
      rw [ih (i + 1) (j + 1) (backing.set j op) op (by omega)
        (by rw [List.length_set]; omega)]
      rw [takeSetSucc backing j op hjlt]
      rw [dropSetHigh backing j _ op hjlt]
      have harith : j + (op :: dedupAdjAux op rest).length =
          j + 1 + (dedupAdjAux op rest).length := by
        simp only [List.length_cons]; omega
      rw [harith]
      simp [List.append_assoc]

theorem newMultiOpBacking_spec (ops : List Op) :
    (newMultiOpBacking ops).1 =
      dedupAdj (sortOps ops) ++ (sortOps ops).drop (dedupAdj (sortOps ops)).length ∧
    (newMultiOpBacking ops).2 = (dedupAdj (sortOps ops)).length := by
  unfold newMultiOpBacking
  cases hs : sortOps ops with
  | nil => simp [mutLoop, dedupAdj]
  | cons op rest =>
    simp only [mutLoop, Nat.lt_irrefl, false_and, if_false, List.set_cons_zero]
    rw [mutLoop_spec rest 1 1 (op :: rest) op (by omega)
      (by simp only [List.length_cons]; omega)]
    simp only [dedupAdj, List.length_cons, List.take_cons, List.take_zero,
      List.drop_succ_cons]
    constructor
    · have h4 : 1 + (dedupAdjAux op rest).length = (dedupAdjAux op rest).length + 1 := by
        omega
      simp [h4]
    · omega

/-- C10: `NewMultiOpEntity` mutates its argument: the caller's slice is
sorted by (entity, action) in place and compacted within the same backing
array, the returned operation list is exactly the prefix `ops[0:j]` of
that mutated backing array (so it shares its storage), and — as the
closed instance shows — the backing array generally no longer holds its
original order or contents after the call. -/
theorem newMultiOpEntity_frame (ops : List Op) :
    (newMultiOpBacking ops).1.take (newMultiOpBacking ops).2 = (NewMultiOpEntity ops).2 ∧
    (newMultiOpBacking ops).1.length = ops.length ∧
    (newMultiOpBacking ops).1 =
      dedupAdj (sortOps ops) ++ (sortOps ops).drop (dedupAdj (sortOps ops)).length ∧
    (newMultiOpBacking [Op.mk "x" "b", Op.mk "y" "a"]).1 ≠
      [Op.mk "x" "b", Op.mk "y" "a"] := by
  obtain ⟨h1, h2⟩ := newMultiOpBacking_spec ops
  have hle : (dedupAdj (sortOps ops)).length ≤ (sortOps ops).length :=
    (dedupAdj_sublist (sortOps ops)).length_le
  have hsl : (sortOps ops).length = ops.length := (sortOps_perm ops).length_eq
  refine ⟨?_, ?_, h1, ?_⟩
  · rw [h1, h2]
    exact List.take_left _ _
  · rw [h1]
    simp only [List.length_append, List.length_drop]
    omega
  · decide

end Auth

namespace AuthV2

section Squasher

variable {T : Type} [LinearOrder T] (parseTime : String → Option T)

theorem keepFn_true_tbTime {cond : String} (h : keepFn parseTime cond = true) :
    tbTime parseTime cond = none := by
  cases hp : parseCaveat cond with
  | none => simp [tbTime, hp]
  | some na =>
    simp only [keepFn, hp] at h
    simp only [tbTime, hp]
    by_cases htb : na.1 = condTimeBefore
    · rw [if_pos htb] at h
      rw [if_pos htb]
      exact Option.isNone_iff_eq_none.mp h
    · rw [if_neg htb]

theorem squasherAdd0_fst (c : CaveatSquasher T) (cond : String) :
    (squasherAdd0 parseTime c cond).1 = keepFn parseTime cond := by
  cases hp : parseCaveat cond with
  | none => simp [squasherAdd0, keepFn, hp]
  | some na =>
    simp only [squasherAdd0, keepFn, hp]
    by_cases htb : na.1 = condTimeBefore
    · rw [if_pos htb, if_pos htb]
      cases hpt : parseTime na.2 with
      | none => rfl
      | some et =>
        cases hce : c.expiry with
        | none => simp [hce]
        | some e => by_cases hlt : et < e <;> simp [hlt, hce]
    · rw [if_neg htb, if_neg htb]
      by_cases hd : na.1 = condAllow ∨ na.1 = condDeny ∨ na.1 = condDeclared <;>
        simp [hd]

theorem squasherAdd0_conds (c : CaveatSquasher T) (cond : String) :
    (squasherAdd0 parseTime c cond).2.conds = c.conds := by
  cases hp : parseCaveat cond with
  | none => simp [squasherAdd0, hp]
  | some na =>
    simp only [squasherAdd0, hp]
    by_cases htb : na.1 = condTimeBefore
    · rw [if_pos htb]
      cases hpt : parseTime na.2 with
      | none => rfl
      | some et =>
        cases hce : c.expiry with
        | none => simp [hce]
        | some e => by_cases hlt : et < e <;> simp [hlt, hce]
    · rw [if_neg htb]
      by_cases hd : na.1 = condAllow ∨ na.1 = condDeny ∨ na.1 = condDeclared <;>
        simp [hd]

theorem squasherAdd0_expiry (c : CaveatSquasher T) (cond : String) :
    (squasherAdd0 parseTime c cond).2.expiry =
      match tbTime parseTime cond with
      | none => c.expiry
      | some t => some (match c.expiry with
        | none => t
        | some e => if t < e then t else e) := by
  cases hp : parseCaveat cond with
  | none => simp [squasherAdd0, tbTime, hp]
  | some na =>
    simp only [squasherAdd0, tbTime, hp]
    by_cases htb : na.1 = condTimeBefore
    · rw [if_pos htb, if_pos htb]
      cases hpt : parseTime na.2 with
      | none => rfl
      | some et =>
        cases hce : c.expiry with
        | none => simp [hce]
        | some e => by_cases hlt : et < e <;> simp [hlt, hce]
    · rw [if_neg htb, if_neg htb]
      by_cases hd : na.1 = condAllow ∨ na.1 = condDeny ∨ na.1 = condDeclared <;>
        simp [hd]

theorem squasherAdd_conds (c : CaveatSquasher T) (cond : String) :
    (squasherAdd parseTime c cond).conds =
      if keepFn parseTime cond = true ∧ cond ∉ c.conds then c.conds ++ [cond]
      else c.conds := by
  unfold squasherAdd
  by_cases hm : cond ∈ c.conds
  · simp [hm]
  · rw [if_neg hm]
    by_cases hk : keepFn parseTime cond = true
    · have h1 := squasherAdd0_fst parseTime c cond
      rw [hk] at h1
      simp only [h1, if_pos rfl, squasherAdd0_conds]
      simp [hk, hm]
    · have h1 := squasherAdd0_fst parseTime c cond
      have hk2 : keepFn parseTime cond = false := by
        cases h : keepFn parseTime cond
        · rfl
        · exact absurd h hk
      rw [hk2] at h1
      simp only [h1, Bool.false_eq_true, if_false, squasherAdd0_conds]
      simp [hk]

theorem squasherAdd_expiry (c : CaveatSquasher T) (cond : String)
    (hP : ∀ x ∈ c.conds, keepFn parseTime x = true) :
    (squasherAdd parseTime c cond).expiry =
      match tbTime parseTime cond with
      | none => c.expiry
      | some t => some (match c.expiry with
        | none => t
        | some e => if t < e then t else e) := by
  unfold squasherAdd
  by_cases hm : cond ∈ c.conds
  · rw [if_pos hm, keepFn_true_tbTime parseTime (hP cond hm)]
  · rw [if_neg hm]
    by_cases hk : (squasherAdd0 parseTime c cond).1 = true
    · simp only [hk, if_pos rfl]
      exact squasherAdd0_expiry parseTime c cond
    · have hk2 : (squasherAdd0 parseTime c cond).1 = false := by
        cases h : (squasherAdd0 parseTime c cond).1
        · rfl
        · exact absurd h hk
      simp only [hk2, Bool.false_eq_true, if_false]
      exact squasherAdd0_expiry parseTime c cond

theorem squasherAdd_inv (c : CaveatSquasher T) (cond : String)
    (hP : ∀ x ∈ c.conds, keepFn parseTime x = true) :
    ∀ x ∈ (squasherAdd parseTime c cond).conds, keepFn parseTime x = true := by
  intro x hx
  rw [squasherAdd_conds] at hx
  by_cases h : keepFn parseTime cond = true ∧ cond ∉ c.conds
  · rw [if_pos h] at hx
    rcases List.mem_append.mp hx with h2 | h2
    · exact hP x h2
    · rw [List.mem_singleton.mp h2]
      exact h.1
  · rw [if_neg h] at hx
    exact hP x hx

theorem squasherAdd_nodup (c : CaveatSquasher T) (cond : String)
    (hnd : c.conds.Nodup) : (squasherAdd parseTime c cond).conds.Nodup := by
  rw [squasherAdd_conds]
  by_cases h : keepFn parseTime cond = true ∧ cond ∉ c.conds
  · rw [if_pos h]
    refine List.Nodup.append hnd (List.nodup_singleton _) ?_
    intro x hx hx2
    rw [List.mem_singleton] at hx2
    exact h.2 (hx2 ▸ hx)
  · rw [if_neg h]
    exact hnd

theorem squasherAdd_mem_sub (c : CaveatSquasher T) (cond : String) :
    ∀ x ∈ (squasherAdd parseTime c cond).conds, x ∈ c.conds ∨ x = cond := by
  intro x hx
  rw [squasherAdd_conds] at hx
  by_cases h : keepFn parseTime cond = true ∧ cond ∉ c.conds
  · rw [if_pos h] at hx
    rcases List.mem_append.mp hx with h2 | h2
    · exact Or.inl h2
    · exact Or.inr (List.mem_singleton.mp h2)
  · rw [if_neg h] at hx
    exact Or.inl hx

theorem squasherFold_inv (l : List String) : ∀ (c : CaveatSquasher T),
    (∀ x ∈ c.conds, keepFn parseTime x = true) → c.conds.Nodup →
    (∀ x ∈ (l.foldl (squasherAdd parseTime) c).conds, keepFn parseTime x = true) ∧
    (l.foldl (squasherAdd parseTime) c).conds.Nodup ∧
    (∀ x ∈ (l.foldl (squasherAdd parseTime) c).conds, x ∈ c.conds ∨ x ∈ l) ∧
    (l.foldl (squasherAdd parseTime) c).expiry =
      l.foldl (fun e d => match tbTime parseTime d with
        | none => e
        | some t => some (match e with
          | none => t
          | some e0 => if t < e0 then t else e0)) c.expiry := by
  induction l with
  | nil =>
    intro c hP hnd
    exact ⟨hP, hnd, fun x hx => Or.inl hx, rfl⟩
  | cons d rest ih =>
    intro c hP hnd
    simp only [List.foldl_cons]
    obtain ⟨h1, h2, h3, h4⟩ := ih (squasherAdd parseTime c d)
      (squasherAdd_inv parseTime c d hP) (squasherAdd_nodup parseTime c d hnd)
    refine ⟨h1, h2, ?_, ?_⟩
    · intro x hx
      rcases h3 x hx with hx2 | hx2
      · rcases squasherAdd_mem_sub parseTime c d x hx2 with h5 | h5
        · exact Or.inl h5
        · exact Or.inr (h5 ▸ List.mem_cons_self _ _)
      · exact Or.inr (List.mem_cons_of_mem _ hx2)
    · rw [h4, squasherAdd_expiry parseTime c d hP]

theorem foldMinEq (t1 : T) : ∀ (l : List String) (e : Option T),
    (∀ t ∈ l.filterMap (tbTime parseTime), t1 ≤ t) →
    (∀ t, e = some t → t1 ≤ t) →
    (t1 ∈ l.filterMap (tbTime parseTime) ∨ e = some t1) →
    l.foldl (fun e d => match tbTime parseTime d with
      | none => e
      | some t => some (match e with
        | none => t
        | some e0 => if t < e0 then t else e0)) e = some t1 := by
  intro l
  induction l with
  | nil =>
    intro e hub he hin
    rcases hin with h | h
    · simp at h
    · exact h
  | cons d rest ih =>
    intro e hub he hin
    simp only [List.foldl_cons]
    cases htb : tbTime parseTime d with
    | none =>
      simp only [htb]
      refine ih e ?_ he ?_
      · intro t ht
        exact hub t (by rw [List.filterMap_cons_none htb]; exact ht)
      · rcases hin with h | h
        · rw [List.filterMap_cons_none htb] at h
          exact Or.inl h
        · exact Or.inr h
    | some t =>
      simp only [htb]
      have ht1t : t1 ≤ t := by
        refine hub t ?_
        rw [List.filterMap_cons_some htb]
        exact List.mem_cons_self _ _
      have hub2 : ∀ s ∈ rest.filterMap (tbTime parseTime), t1 ≤ s := by
        intro s hs
        refine hub s ?_
        rw [List.filterMap_cons_some htb]
        exact List.mem_cons_of_mem _ hs
      cases hce : e with
      | none =>
        refine ih (some t) hub2 (fun s hs => (Option.some.inj hs) ▸ ht1t) ?_
        rcases hin with h | h
        · rw [List.filterMap_cons_some htb] at h
          rcases List.mem_cons.mp h with rfl | h2
          · exact Or.inr rfl
          · exact Or.inl h2
        · rw [hce] at h
          cases h
      | some e0 =>
        rw [hce] at he hin
        have ht1e0 : t1 ≤ e0 := he e0 rfl
        by_cases hlt : t < e0
        · have hval : (match some e0 with
              | none => t
              | some e0 => if t < e0 then t else e0) = t := by
            simp [hlt]
          rw [hval]
          refine ih (some t) hub2 (fun s hs => (Option.some.inj hs) ▸ ht1t) ?_
          rcases hin with h | h
          · rw [List.filterMap_cons_some htb] at h
            rcases List.mem_cons.mp h with rfl | h2
            · exact Or.inr rfl
            · exact Or.inl h2
          · have h2 : e0 = t1 := Option.some.inj h
            exact absurd (h2 ▸ hlt) (not_lt_of_le ht1t)
        · have hval : (match some e0 with
              | none => t
              | some e0 => if t < e0 then t else e0) = e0 := by
            simp [hlt]
          rw [hval]
          refine ih (some e0) hub2 (fun s hs => (Option.some.inj hs) ▸ ht1e0) ?_
          rcases hin with h | h
          · rw [List.filterMap_cons_some htb] at h
            rcases List.mem_cons.mp h with rfl | h2
            · refine Or.inr ?_
              have h7 : e0 ≤ t1 := le_of_not_lt hlt
              rw [le_antisymm h7 ht1e0]
            · exact Or.inl h2
          · exact Or.inr h

theorem stringMkData (s : String) : String.mk s.data = s := by
  cases s; rfl

theorem splitAtSpace_append (a b : List Char) (ha : ' ' ∉ a) :
    splitAtSpace (a ++ ' ' :: b) = some (a, b) := by
  induction a with
  | nil => simp [splitAtSpace]
  | cons x xs ih =>
    have hx : ¬ x = ' ' := fun h => ha (h ▸ List.mem_cons_self _ _)
    simp only [List.cons_append, splitAtSpace, List.append_eq]
    rw [if_neg hx, ih (fun h => ha (List.mem_cons_of_mem _ h))]

theorem parseCaveat_tb (s : String) :
    parseCaveat (condTimeBefore ++ " " ++ s) = some (condTimeBefore, s) := by
  have hdata : (condTimeBefore ++ " " ++ s).data = condTimeBefore.data ++ ' ' :: s.data := by
    simp [condTimeBefore]
  have hne : ¬ condTimeBefore ++ " " ++ s = "" := by
    intro h
    have h2 : (condTimeBefore ++ " " ++ s).data = [] := by rw [h]
    rw [hdata] at h2
    simp [condTimeBefore] at h2
  unfold parseCaveat
  rw [if_neg hne, hdata, splitAtSpace_append _ _ (by decide)]
  have h3 : condTimeBefore.data ≠ [] := by decide
  cases hd : condTimeBefore.data with
  | nil => exact absurd hd h3
  | cons y ys =>
    simp only [stringMkData]
    rw [← hd, stringMkData]

theorem keepFn_tb_false (fmtTime : T → String)
    (hrt : ∀ t : T, parseTime (fmtTime t) = some t) (t : T) :
    keepFn parseTime (condTimeBefore ++ " " ++ fmtTime t) = false := by
  unfold keepFn
  rw [parseCaveat_tb]
  simp [hrt t]

theorem isTBCond_tb (s : String) : isTBCond (condTimeBefore ++ " " ++ s) = true := by
  unfold isTBCond
  rw [parseCaveat_tb]
  simp

theorem sortStrings_perm (l : List String) : List.Perm (sortStrings l) l :=
  List.perm_insertionSort _ _

theorem sortStrings_sorted (l : List String) : (sortStrings l).Sorted strLE :=
  List.sorted_insertionSort _ _

theorem headD_eq_getD (l : List String) : l.headD "" = l.getD 0 "" := by
  cases l <;> rfl

theorem drop_eq_getD_cons {c : List String} : ∀ {i : Nat}, i < c.length →
    c.drop i = c.getD i "" :: c.drop (i + 1) := by
  induction c with
  | nil => intro i h; simp at h
  | cons x xs ih =>
    intro i h
    cases i with
    | zero => rfl
    | succ j =>
      simp only [List.drop_succ_cons, List.getD_cons_succ]
      exact ih (by simpa using h)

theorem set_of_drop_cons {c : List String} : ∀ {j : Nat} {x : String} {rest : List String},
    c.drop j = x :: rest → c.set j x = c := by
  induction c with
  | nil => intro j x rest h; simp at h
  | cons y ys ih =>
    intro j x rest h
    cases j with
    | zero =>
      simp only [List.drop_zero] at h
      cases h
      rfl
    | succ i =>
      simp only [List.drop_succ_cons] at h
      simp only [List.set_cons_succ]
      rw [ih h]

theorem finalLoop_id : ∀ (t c : List String) (j : Nat), 1 ≤ j → t = c.drop j →
    List.Chain' (fun a b : String => a ≠ b) (c.drop (j - 1)) →
    finalLoop t c (c.getD (j - 1) "") j = c := by
  intro t
  induction t with
  | nil =>
    intro c j h1 ht hch
    simp [finalLoop]
  | cons cond rest ih =>
    intro c j h1 ht hch
    have hdj : c.drop j = cond :: rest := ht.symm
    have hjlt : j < c.length := by
      by_contra hc
      rw [List.drop_eq_nil_of_le (by omega)] at hdj
      cases hdj
    have hdj1 : c.drop (j - 1) = c.getD (j - 1) "" :: c.drop j := by
      have : j - 1 + 1 = j := by omega
      rw [drop_eq_getD_cons (by omega), this]
    rw [hdj1, hdj] at hch
    have hne : c.getD (j - 1) "" ≠ cond := (List.chain'_cons.mp hch).1
    have hgj : c.getD j "" = cond := by
      have h0 := drop_eq_getD_cons hjlt
      rw [hdj] at h0
      exact (List.cons.injEq _ _ _ _ ▸ h0).1.symm
    have hrest : c.drop (j + 1) = rest := by
      have h0 := drop_eq_getD_cons hjlt
      rw [hdj] at h0
      exact (List.cons.injEq _ _ _ _ ▸ h0).2.symm
    simp only [finalLoop]
    rw [if_pos (fun h => hne h.symm)]
    rw [set_of_drop_cons hdj]
    have hres := ih c (j + 1) (by omega) hrest.symm ?_
    · rw [Nat.add_sub_cancel, hgj] at hres
      exact hres
    · rw [Nat.add_sub_cancel, hdj]
      exact (List.chain'_cons.mp hch).2

theorem sortFinalize_eq (conds2 : List String) (hnd : conds2.Nodup) :
    (if conds2.isEmpty then ([] : List String) else
      finalLoop (sortStrings conds2).tail (sortStrings conds2)
        ((sortStrings conds2).headD "") 1) = sortStrings conds2 := by
  by_cases he : conds2.isEmpty
  · rw [if_pos he]
    rw [List.isEmpty_iff.mp he]
    rfl
  · rw [if_neg he]
    have hnd2 : (sortStrings conds2).Nodup := (sortStrings_perm conds2).nodup_iff.mpr hnd
    have hch : List.Chain' (fun a b : String => a ≠ b) (sortStrings conds2) :=
      List.Pairwise.chain' hnd2
    have := finalLoop_id (sortStrings conds2).tail (sortStrings conds2) 1 (le_refl 1)
      (by rw [List.drop_one]) (by simpa using hch)
    rw [headD_eq_getD]
    simpa using this

theorem squasherAdd_absorb (c : CaveatSquasher T) (cond : String)
    (hP : ∀ x ∈ c.conds, keepFn parseTime x = true)
    (hmem : keepFn parseTime cond = true → cond ∈ c.conds)
    (hexp : ∀ t, tbTime parseTime cond = some t → ∃ e, c.expiry = some e ∧ e ≤ t) :
    squasherAdd parseTime c cond = c := by
  by_cases hm : cond ∈ c.conds
  · unfold squasherAdd
    rw [if_pos hm]
  · have hk : keepFn parseTime cond = false := by
      cases h : keepFn parseTime cond
      · rfl
      · exact absurd (hmem h) hm
    have hconds : (squasherAdd parseTime c cond).conds = c.conds := by
      rw [squasherAdd_conds]
      simp [hk]
    have hexp2 : (squasherAdd parseTime c cond).expiry = c.expiry := by
      rw [squasherAdd_expiry parseTime c cond hP]
      cases htb : tbTime parseTime cond with
      | none => rfl
      | some t =>
        obtain ⟨e, he, hle⟩ := hexp t htb
        simp only [he]
        rw [if_neg (not_lt.mpr hle)]
    calc squasherAdd parseTime c cond
        = ⟨(squasherAdd parseTime c cond).expiry, (squasherAdd parseTime c cond).conds⟩ := rfl
      _ = ⟨c.expiry, c.conds⟩ := by rw [hconds, hexp2]
      _ = c := rfl

theorem squasherAdd_incorp_mem (c : CaveatSquasher T) (cond : String)
    (h : keepFn parseTime cond = true) :
    cond ∈ (squasherAdd parseTime c cond).conds := by
  rw [squasherAdd_conds]
  by_cases hm : cond ∈ c.conds
  · simp [hm]
  · rw [if_pos ⟨h, hm⟩]
    simp

theorem squasherAdd_incorp_exp (c : CaveatSquasher T) (cond : String)
    (hP : ∀ x ∈ c.conds, keepFn parseTime x = true) :
    ∀ t, tbTime parseTime cond = some t →
      ∃ e, (squasherAdd parseTime c cond).expiry = some e ∧ e ≤ t := by
  intro t htb
  rw [squasherAdd_expiry parseTime c cond hP]
  simp only [htb]
  cases hce : c.expiry with
  | none =>
    simp only [hce]
    exact ⟨t, rfl, le_refl t⟩
  | some e0 =>
    simp only [hce]
    by_cases hlt : t < e0
    · rw [if_pos hlt]
      exact ⟨t, rfl, le_refl t⟩
    · rw [if_neg hlt]
      exact ⟨e0, rfl, le_of_not_lt hlt⟩

theorem squasherAdd_mem_mono (c : CaveatSquasher T) (d x : String)
    (hx : x ∈ c.conds) : x ∈ (squasherAdd parseTime c d).conds := by
  rw [squasherAdd_conds]
  by_cases h : keepFn parseTime d = true ∧ d ∉ c.conds
  · rw [if_pos h]
    exact List.mem_append_left _ hx
  · rw [if_neg h]
    exact hx

theorem squasherAdd_exp_mono (c : CaveatSquasher T) (d : String)
    (hP : ∀ x ∈ c.conds, keepFn parseTime x = true) (e : T) (he : c.expiry = some e) :
    ∃ e2, (squasherAdd parseTime c d).expiry = some e2 ∧ e2 ≤ e := by
  have h2 := squasherAdd_expiry parseTime c d hP
  cases htb : tbTime parseTime d with
  | none =>
    simp only [htb] at h2
    exact ⟨e, h2.trans he, le_refl e⟩
  | some t =>
    simp only [htb, he] at h2
    by_cases hlt : t < e
    · rw [if_pos hlt] at h2
      exact ⟨t, h2, le_of_lt hlt⟩
    · rw [if_neg hlt] at h2
      exact ⟨e, h2, le_refl e⟩

theorem foldAdd_pres (cond : String) (l : List String) : ∀ (c : CaveatSquasher T),
    (∀ x ∈ c.conds, keepFn parseTime x = true) →
    (keepFn parseTime cond = true → cond ∈ c.conds) →
    (∀ t, tbTime parseTime cond = some t → ∃ e, c.expiry = some e ∧ e ≤ t) →
    (∀ x ∈ (l.foldl (squasherAdd parseTime) c).conds, keepFn parseTime x = true) ∧
    (keepFn parseTime cond = true → cond ∈ (l.foldl (squasherAdd parseTime) c).conds) ∧
    (∀ t, tbTime parseTime cond = some t →
      ∃ e, (l.foldl (squasherAdd parseTime) c).expiry = some e ∧ e ≤ t) := by
  induction l with
  | nil =>
    intro c h1 h2 h3
    exact ⟨h1, h2, h3⟩
  | cons d rest ih =>
    intro c h1 h2 h3
    simp only [List.foldl_cons]
    refine ih (squasherAdd parseTime c d) (squasherAdd_inv parseTime c d h1) ?_ ?_
    · intro hk
      exact squasherAdd_mem_mono parseTime c d cond (h2 hk)
    · intro t htb
      obtain ⟨e, he, hle⟩ := h3 t htb
      obtain ⟨e2, he2, hle2⟩ := squasherAdd_exp_mono parseTime c d h1 e he
      exact ⟨e2, he2, le_trans hle2 hle⟩

theorem runSquasher_dup (l1 l2 l3 : List String) (c : String) :
    (runSquasher parseTime (l1 ++ c :: (l2 ++ c :: l3)) : CaveatSquasher T) =
      runSquasher parseTime (l1 ++ c :: (l2 ++ l3)) := by
  unfold runSquasher
  simp only [List.foldl_append, List.foldl_cons]
  have hinit : ∀ x ∈ (CaveatSquasher.mk (T := T) none []).conds, keepFn parseTime x = true := by
    intro x hx
    cases hx
  obtain ⟨hPs0, hnd0, _, _⟩ := squasherFold_inv parseTime l1 ⟨none, []⟩ hinit List.nodup_nil
  have hPs0c : ∀ x ∈ (squasherAdd parseTime (l1.foldl (squasherAdd parseTime) ⟨none, []⟩) c).conds,
      keepFn parseTime x = true :=
    squasherAdd_inv parseTime _ c hPs0
  obtain ⟨hP1, hmem1, hexp1⟩ := foldAdd_pres parseTime c l2
    (squasherAdd parseTime (l1.foldl (squasherAdd parseTime) ⟨none, []⟩) c)
    hPs0c
    (fun hk => squasherAdd_incorp_mem parseTime _ c hk)
    (squasherAdd_incorp_exp parseTime _ c hPs0)
  rw [squasherAdd_absorb parseTime _ c hP1 hmem1 hexp1]

theorem squasherFinal_sort (fmtTime : T → String) (q : CaveatSquasher T)
    (conds2 : List String)
    (hc : conds2 = match q.expiry with
      | none => q.conds
      | some e => q.conds ++ [condTimeBefore ++ " " ++ fmtTime e])
    (hnd : conds2.Nodup) :
    squasherFinal fmtTime q = sortStrings conds2 := by
  unfold squasherFinal
  rw [← hc]
  exact sortFinalize_eq conds2 hnd

theorem squasherFinal_conds2_nodup (fmtTime : T → String)
    (hrt : ∀ t : T, parseTime (fmtTime t) = some t) (q : CaveatSquasher T)
    (hP : ∀ x ∈ q.conds, keepFn parseTime x = true) (hnd : q.conds.Nodup) :
    (match q.expiry with
      | none => q.conds
      | some e => q.conds ++ [condTimeBefore ++ " " ++ fmtTime e]).Nodup := by
  cases hq : q.expiry with
  | none => exact hnd
  | some e =>
    refine List.Nodup.append hnd (List.nodup_singleton _) ?_
    intro x hx hx2
    rw [List.mem_singleton] at hx2
    have h2 := hP x hx
    rw [hx2, keepFn_tb_false parseTime fmtTime hrt e] at h2
    cases h2

end Squasher

/-- C8: the squasher's `add` is idempotent — inserting a second `add(c)`
anywhere after a first one leaves the `final()` result unchanged — and
`final()` always returns a duplicate-free, lexicographically sorted
list (given that formatted times parse back, as RFC3339 round-trips). -/
theorem squasher_add_idempotent {T : Type} [LinearOrder T]
    (parseTime : String → Option T) (fmtTime : T → String)
    (hrt : ∀ t : T, parseTime (fmtTime t) = some t) :
    (∀ l1 l2 l3 c,
      squasherFinal fmtTime (runSquasher parseTime (l1 ++ c :: (l2 ++ c :: l3))) =
        squasherFinal fmtTime (runSquasher parseTime (l1 ++ c :: (l2 ++ l3)))) ∧
    (∀ l, (squasherFinal fmtTime (runSquasher parseTime l)).Nodup ∧
      (squasherFinal fmtTime (runSquasher parseTime l)).Sorted strLE) := by
  constructor
  · intro l1 l2 l3 c
    rw [runSquasher_dup parseTime l1 l2 l3 c]
  · intro l
    have hinit : ∀ x ∈ (CaveatSquasher.mk (T := T) none []).conds, keepFn parseTime x = true := by
      intro x hx
      cases hx
    obtain ⟨hP, hnd, _, _⟩ := squasherFold_inv parseTime l ⟨none, []⟩ hinit List.nodup_nil
    have hnd2 := squasherFinal_conds2_nodup parseTime fmtTime hrt
      (runSquasher parseTime l) hP hnd
    rw [squasherFinal_sort fmtTime (runSquasher parseTime l) _ rfl hnd2]
    constructor
    · exact (sortStrings_perm _).nodup_iff.mpr hnd2
    · exact sortStrings_sorted _

theorem squasher_add_idempotent_witness :
    (∀ t : Bool, (fun s => if s = "f" then some false
        else if s = "t" then some true else (none : Option Bool))
      ((fun b : Bool => if b then "t" else "f") t) = some t) ∧
    squasherFinal (fun b : Bool => if b then "t" else "f")
      (runSquasher (fun s => if s = "f" then some false
        else if s = "t" then some true else (none : Option Bool))
        (["x y"] ++ "time-before t" :: ([] ++ "time-before t" :: ["allow read"]))) =
    squasherFinal (fun b : Bool => if b then "t" else "f")
      (runSquasher (fun s => if s = "f" then some false
        else if s = "t" then some true else (none : Option Bool))
        (["x y"] ++ "time-before t" :: ([] ++ ["allow read"]))) :=
  ⟨by decide,
   (squasher_add_idempotent _ _ (by decide)).1 ["x y"] [] ["allow read"] "time-before t"⟩

/-- C7: when the added conditions contain `time-before` conditions with
valid times `T1 < T2` (in any order, among other conditions, every
`time-before`-kind condition carrying a valid time, `T1` the earliest),
`final()` contains exactly one `time-before` condition and its time is
`T1`. -/
theorem squasher_earliest_expiry {T : Type} [LinearOrder T]
    (parseTime : String → Option T) (fmtTime : T → String)
    (hrt : ∀ t : T, parseTime (fmtTime t) = some t)
    (l : List String) (t1 : T)
    (hvalid : ∀ c ∈ l, isTBCond c = true → (tbTime parseTime c).isSome = true)
    (hmem : ∃ c ∈ l, tbTime parseTime c = some t1)
    (hlb : ∀ c ∈ l, ∀ t, tbTime parseTime c = some t → t1 ≤ t)
    (hlt : ∃ c ∈ l, ∃ t2, tbTime parseTime c = some t2 ∧ t1 < t2) :
    (squasherFinal fmtTime (runSquasher parseTime l)).filter isTBCond =
      [condTimeBefore ++ " " ++ fmtTime t1] ∧
    parseTime (fmtTime t1) = some t1 := by
  have hinit : ∀ x ∈ (CaveatSquasher.mk (T := T) none []).conds, keepFn parseTime x = true := by
    intro x hx
    cases hx
  obtain ⟨hP, hnd, hsub, hexp⟩ := squasherFold_inv parseTime l ⟨none, []⟩ hinit List.nodup_nil
  have hexp1 : (runSquasher parseTime l).expiry = some t1 := by
    show (List.foldl (squasherAdd parseTime) ⟨none, []⟩ l).expiry = some t1
    rw [hexp]
    refine foldMinEq parseTime t1 l none ?_ (fun t ht => by cases ht) ?_
    · intro t ht
      obtain ⟨c, hcl, hct⟩ := List.mem_filterMap.mp ht
      exact hlb c hcl t hct
    · refine Or.inl ?_
      obtain ⟨c, hcl, hct⟩ := hmem
      exact List.mem_filterMap.mpr ⟨c, hcl, hct⟩
  have hnoTB : ∀ x ∈ (runSquasher parseTime l).conds, isTBCond x = false := by
    intro x hx
    cases hb : isTBCond x
    · rfl
    · have hkeep := hP x hx
      have hxl : x ∈ l := by
        rcases hsub x hx with h | h
        · cases h
        · exact h
      have hsome := hvalid x hxl hb
      rw [keepFn_true_tbTime parseTime hkeep] at hsome
      cases hsome
  have hnd2 := squasherFinal_conds2_nodup parseTime fmtTime hrt (runSquasher parseTime l) hP hnd
  rw [hexp1] at hnd2
  have hfin : squasherFinal fmtTime (runSquasher parseTime l) =
      sortStrings ((runSquasher parseTime l).conds ++
        [condTimeBefore ++ " " ++ fmtTime t1]) := by
    refine squasherFinal_sort fmtTime (runSquasher parseTime l) _ ?_ hnd2
    rw [hexp1]
  rw [hfin]
  constructor
  · have hperm := (sortStrings_perm ((runSquasher parseTime l).conds ++
      [condTimeBefore ++ " " ++ fmtTime t1])).filter isTBCond
    have hf2 : ((runSquasher parseTime l).conds ++
        [condTimeBefore ++ " " ++ fmtTime t1]).filter isTBCond =
        [condTimeBefore ++ " " ++ fmtTime t1] := by
      rw [List.filter_append]
      rw [List.filter_eq_nil_iff.mpr (fun a ha => by rw [hnoTB a ha]; simp)]
      simp [isTBCond_tb]
    rw [hf2] at hperm
    exact List.perm_singleton.mp hperm
  · exact hrt t1

theorem squasher_earliest_expiry_witness :
    (∀ c ∈ ["time-before f", "time-before t", "x y"], isTBCond c = true →
      (tbTime (fun s => if s = "f" then some false
        else if s = "t" then some true else (none : Option Bool)) c).isSome = true) ∧
    (squasherFinal (fun b : Bool => if b then "t" else "f")
        (runSquasher (fun s => if s = "f" then some false
          else if s = "t" then some true else (none : Option Bool))
          ["time-before f", "time-before t", "x y"])).filter isTBCond =
      [condTimeBefore ++ " " ++ (fun b : Bool => if b then "t" else "f") false] :=
  ⟨by decide,
   (squasher_earliest_expiry
      (fun s => if s = "f" then some false
        else if s = "t" then some true else (none : Option Bool))
      (fun b : Bool => if b then "t" else "f")
      (by decide)
      ["time-before f", "time-before t", "x y"] false
      (by decide) (by decide) (by decide) (by decide)).1⟩



end AuthV2

/-! Generic list lemmas shared by the authorizer proofs. -/

theorem getDSetNe {α : Type} (l : List α) : ∀ (i j : Nat) (a d : α), i ≠ j →
    (l.set i a).getD j d = l.getD j d := by
  induction l with
  | nil => intro i j a d _; rfl
  | cons x xs ih =>
    intro i j a d h
    cases i with
    | zero =>
      cases j with
      | zero => exact absurd rfl h
      | succ j2 => rfl
    | succ i2 =>
      cases j with
      | zero => rfl
      | succ j2 => exact ih i2 j2 a d (fun he => h (by rw [he]))

theorem getDReplicateFalse (n j : Nat) : (List.replicate n false).getD j false = false := by
  induction n generalizing j with
  | zero => rfl
  | succ m ih =>
    cases j with
    | zero => rfl
    | succ j2 => exact ih j2

theorem getDMem {α : Type} (l : List α) : ∀ (k : Nat) (d : α), k < l.length →
    l.getD k d ∈ l := by
  induction l with
  | nil => intro k d h; simp at h
  | cons x xs ih =>
    intro k d h
    cases k with
    | zero => exact List.mem_cons_self _ _
    | succ k2 => exact List.mem_cons_of_mem _ (ih k2 d (by simpa using h))

namespace AuthV2

theorem enumFromSpec (d : Op) : ∀ (ops : List Op) (n : Nat) (p : Nat × Op),
    p ∈ ops.enumFrom n → n ≤ p.1 ∧ p.1 - n < ops.length ∧ p.2 = ops.getD (p.1 - n) d := by
  intro ops
  induction ops with
  | nil => intro n p h; cases h
  | cons op rest ih =>
    intro n p h
    rcases List.mem_cons.mp h with rfl | h2
    · exact ⟨le_refl n, by simp, by simp⟩
    · obtain ⟨h3, h4, h5⟩ := ih (n + 1) p h2
      refine ⟨by omega, by simp only [List.length_cons]; omega, ?_⟩
      have h6 : p.1 - n = (p.1 - (n + 1)) + 1 := by omega
      rw [h6, List.getD_cons_succ]
      exact h5

theorem needPairsSpec (ops : List Op) (authed : List Bool) (k : Nat)
    (hk : k < (needPairs ops authed).length) :
    ((needPairs ops authed).getD k (0, ⟨"", ""⟩)).2 =
      ops.getD ((needPairs ops authed).getD k (0, ⟨"", ""⟩)).1 ⟨"", ""⟩ ∧
    ((needPairs ops authed).getD k (0, ⟨"", ""⟩)).1 < ops.length := by
  have hmem : (needPairs ops authed).getD k (0, ⟨"", ""⟩) ∈ needPairs ops authed :=
    getDMem _ k _ hk
  have henum : (needPairs ops authed).getD k (0, ⟨"", ""⟩) ∈ ops.enum :=
    (List.mem_filter.mp hmem).1
  obtain ⟨_, h2, h3⟩ := enumFromSpec ⟨"", ""⟩ ops 0 _ henum
  exact ⟨h3, h2⟩

theorem macLoopGo_skip (a : AZ) (env : Env2) (nops : Nat) : ∀ (l : List Op) (k : Nat)
    (authed used : List Bool) (p : Nat),
    (∀ m, m < l.length → k + m = p → (l.getD m ⟨"", ""⟩ = LoginOp ∧ 1 < nops)) →
    authed.getD p false = false →
    (macLoopGo a env nops k l authed used).1.getD p false = false := by
  intro l
  induction l with
  | nil => intro k authed used p _ h0; exact h0
  | cons op rest ih =>
    intro k authed used p hlogin h0
    simp only [macLoopGo]
    by_cases hg : op = LoginOp ∧ 1 < nops
    · rw [if_pos hg]
      refine ih (k + 1) authed used p ?_ h0
      intro m hm he
      exact hlogin (m + 1) (by simpa using Nat.succ_lt_succ hm) (by omega)
    · rw [if_neg hg]
      cases hf : (a.authIndexes op).find? (fun m => env.checkOK op (a.conds.getD m [])) with
      | none =>
        refine ih (k + 1) authed used p ?_ h0
        intro m hm he
        exact hlogin (m + 1) (by simpa using Nat.succ_lt_succ hm) (by omega)
      | some mi =>
        have hkp : k ≠ p := by
          intro he
          exact hg (hlogin 0 (by simp) (by omega))
        refine ih (k + 1) (authed.set k true) (used.set mi true) p ?_ ?_
        · intro m hm he
          exact hlogin (m + 1) (by simpa using Nat.succ_lt_succ hm) (by omega)
        · rw [getDSetNe authed k p true false hkp]
          exact h0

theorem macPhase_login_skip (a : AZ) (env : Env2) (ops : List Op) (p : Nat)
    (hp : p < ops.length) (hop : ops.getD p ⟨"", ""⟩ = LoginOp) (hmix : 1 < ops.length) :
    (macPhase a env ops).1.getD p false = false := by
  refine macLoopGo_skip a env ops.length ops 0 _ _ p ?_ (getDReplicateFalse _ _)
  intro m hm he
  have h2 : m = p := by omega
  exact ⟨h2 ▸ hop, hmix⟩

theorem applyOks_getD : ∀ (pairs : List (Nat × Op)) (oks authed : List Bool) (p : Nat),
    (applyOks pairs oks authed).1.getD p false = true →
    authed.getD p false = true ∨
      ∃ k, k < pairs.length ∧ (pairs.getD k (0, ⟨"", ""⟩)).1 = p ∧
        oks.getD k false = true := by
  intro pairs
  induction pairs with
  | nil => intro oks authed p h; exact Or.inl h
  | cons q pairs ih =>
    intro oks authed p h
    cases oks with
    | nil => exact Or.inl h
    | cons ok oks =>
      simp only [applyOks] at h
      by_cases hok : ok = true
      · rw [if_pos hok] at h
        rcases ih oks (authed.set q.1 true) p h with h2 | ⟨k, hk, hfst, hoks⟩
        · by_cases hqp : q.1 = p
          · exact Or.inr ⟨0, by simp, hqp, by simpa using hok⟩
          · rw [getDSetNe authed q.1 p true false hqp] at h2
            exact Or.inl h2
        · exact Or.inr ⟨k + 1, by simpa using Nat.succ_lt_succ hk, hfst, hoks⟩
      · rw [if_neg hok] at h
        rcases ih oks authed p h with h2 | ⟨k, hk, hfst, hoks⟩
        · exact Or.inl h2
        · exact Or.inr ⟨k + 1, by simpa using Nat.succ_lt_succ hk, hfst, hoks⟩

/-- C9: in `AllowAny`, when the request mixes `LoginOp` with other
operations, the macaroon phase never marks `LoginOp` authorized (it is
skipped), so a `LoginOp` position can end up authorized only through the
`UserChecker.Allow` (authenticated identity) path. -/
theorem allowAny_loginOp_identity_only (a : AZ) (env : Env2) (ops : List Op) (p : Nat)
    (hp : p < ops.length) (hop : ops.getD p ⟨"", ""⟩ = LoginOp) (hmix : 1 < ops.length) :
    (macPhase a env ops).1.getD p false = false ∧
    (∀ authed used e, allowAny a env ops = some (authed, used, e) →
      authed.getD p false = true →
      ∃ oks caveats k,
        env.userAllow a.identity ((needPairs ops (macPhase a env ops).1).map Prod.snd) =
          UserAllowRes.ok oks caveats ∧
        k < (needPairs ops (macPhase a env ops).1).length ∧
        (needPairs ops (macPhase a env ops).1).getD k (0, ⟨"", ""⟩) = (p, LoginOp) ∧
        oks.getD k false = true) := by
  have hA := macPhase_login_skip a env ops p hp hop hmix
  refine ⟨hA, ?_⟩
  intro authed used e h htrue
  have hnil : ∀ (idArg : Option Identity) (used0 : List Bool) (e2 : Option AllowErr2),
      some (([] : List Bool), used0, e2) = some (authed, used, e) →
      ∃ oks caveats k,
        env.userAllow idArg ((needPairs ops (macPhase a env ops).1).map Prod.snd) =
          UserAllowRes.ok oks caveats ∧
        k < (needPairs ops (macPhase a env ops).1).length ∧
        (needPairs ops (macPhase a env ops).1).getD k (0, ⟨"", ""⟩) = (p, LoginOp) ∧
        oks.getD k false = true := by
    intro idArg used0 e2 h3
    simp only [Option.some.injEq, Prod.mk.injEq] at h3
    obtain ⟨h4, _, _⟩ := h3
    rw [← h4] at htrue
    simp at htrue
  have hbad : ∀ (idArg : Option Identity) (used0 : List Bool) (e2 : Option AllowErr2),
      some ((macPhase a env ops).1, used0, e2) = some (authed, used, e) →
      ∃ oks caveats k,
        env.userAllow idArg ((needPairs ops (macPhase a env ops).1).map Prod.snd) =
          UserAllowRes.ok oks caveats ∧
        k < (needPairs ops (macPhase a env ops).1).length ∧
        (needPairs ops (macPhase a env ops).1).getD k (0, ⟨"", ""⟩) = (p, LoginOp) ∧
        oks.getD k false = true := by
    intro idArg used0 e2 h3
    simp only [Option.some.injEq, Prod.mk.injEq] at h3
    obtain ⟨h4, _, _⟩ := h3
    rw [← h4, hA] at htrue
    exact Bool.noConfusion htrue
  have happly : ∀ (idArg : Option Identity) (used0 : List Bool) (e2 : Option AllowErr2)
      (oks : List Bool) (caveats : List Caveat),
      env.userAllow idArg ((needPairs ops (macPhase a env ops).1).map Prod.snd) =
        UserAllowRes.ok oks caveats →
      some ((applyOks (needPairs ops (macPhase a env ops).1) oks (macPhase a env ops).1).1,
        used0, e2) = some (authed, used, e) →
      ∃ oks2 caveats2 k,
        env.userAllow idArg ((needPairs ops (macPhase a env ops).1).map Prod.snd) =
          UserAllowRes.ok oks2 caveats2 ∧
        k < (needPairs ops (macPhase a env ops).1).length ∧
        (needPairs ops (macPhase a env ops).1).getD k (0, ⟨"", ""⟩) = (p, LoginOp) ∧
        oks2.getD k false = true := by
    intro idArg used0 e2 oks caveats hua h3
    simp only [Option.some.injEq, Prod.mk.injEq] at h3
    obtain ⟨h4, _, _⟩ := h3
    rw [← h4] at htrue
    rcases applyOks_getD (needPairs ops (macPhase a env ops).1) oks
        (macPhase a env ops).1 p htrue with h5 | ⟨k, hk, hfst, hoks⟩
    · rw [hA] at h5
      exact Bool.noConfusion h5
    · obtain ⟨hsnd, _⟩ := needPairsSpec ops (macPhase a env ops).1 k hk
      refine ⟨oks, caveats, k, hua, hk, ?_, hoks⟩
      rw [hfst, hop] at hsnd
      exact Prod.ext_iff.mpr ⟨hfst, hsnd⟩
  have huashape : ∀ r : UserAllowRes,
      (∃ oks caveats, r = UserAllowRes.ok oks caveats) ∨ r = UserAllowRes.fail := by
    intro r
    cases r with
    | ok oks caveats => exact Or.inl ⟨oks, caveats, rfl⟩
    | fail => exact Or.inr rfl
  have hmainNone : ∀ used0 : List Bool,
      (if (macPhase a env ops).1.count true = ops.length then
          some (([] : List Bool), used0, (none : Option AllowErr2))
        else
          match env.userAllow none
              ((needPairs ops (macPhase a env ops).1).map Prod.snd) with
          | UserAllowRes.fail =>
            some ((macPhase a env ops).1, used0, some AllowErr2.hard)
          | UserAllowRes.ok oks caveats =>
            if oks.length ≠ ((needPairs ops (macPhase a env ops).1).map Prod.snd).length then
              some ((macPhase a env ops).1, used0, some AllowErr2.hard)
            else
              if (applyOks (needPairs ops (macPhase a env ops).1) oks
                    (macPhase a env ops).1).2.isEmpty ∧ caveats.isEmpty then
                some ((applyOks (needPairs ops (macPhase a env ops).1) oks
                  (macPhase a env ops).1).1, used0, none)
              else
                some ((applyOks (needPairs ops (macPhase a env ops).1) oks
                  (macPhase a env ops).1).1, used0, some (AllowErr2.discharge
                  ⟨"authentication required", [LoginOp], env.identityCaveats⟩))) =
        some (authed, used, e) →
      ∃ oks caveats k,
        env.userAllow none ((needPairs ops (macPhase a env ops).1).map Prod.snd) =
          UserAllowRes.ok oks caveats ∧
        k < (needPairs ops (macPhase a env ops).1).length ∧
        (needPairs ops (macPhase a env ops).1).getD k (0, ⟨"", ""⟩) = (p, LoginOp) ∧
        oks.getD k false = true := by
    intro used0 h2
    by_cases hcnt : (macPhase a env ops).1.count true = ops.length
    · rw [if_pos hcnt] at h2
      exact hnil none used0 none h2
    · rw [if_neg hcnt] at h2
      rcases huashape (env.userAllow none
          ((needPairs ops (macPhase a env ops).1).map Prod.snd)) with ⟨oks, caveats, hua⟩ | hua
      · rw [hua] at h2
        simp only at h2
        by_cases hlen : oks.length ≠ ((needPairs ops (macPhase a env ops).1).map Prod.snd).length
        · rw [if_pos hlen] at h2
          exact hbad none used0 _ h2
        · rw [if_neg hlen] at h2
          by_cases hstill : (applyOks (needPairs ops (macPhase a env ops).1) oks
              (macPhase a env ops).1).2.isEmpty ∧ caveats.isEmpty
          · rw [if_pos hstill] at h2
            exact happly none used0 none oks caveats hua h2
          · rw [if_neg hstill] at h2
            exact happly none used0 _ oks caveats hua h2
      · rw [hua] at h2
        simp only at h2
        exact hbad none used0 _ h2
  have hmainSome : ∀ (idv : Identity) (used0 : List Bool),
      (if (macPhase a env ops).1.count true = ops.length then
          some (([] : List Bool), used0, (none : Option AllowErr2))
        else
          match env.userAllow (some idv)
              ((needPairs ops (macPhase a env ops).1).map Prod.snd) with
          | UserAllowRes.fail =>
            some ((macPhase a env ops).1, used0, some AllowErr2.hard)
          | UserAllowRes.ok oks caveats =>
            if oks.length ≠ ((needPairs ops (macPhase a env ops).1).map Prod.snd).length then
              some ((macPhase a env ops).1, used0, some AllowErr2.hard)
            else
              if (applyOks (needPairs ops (macPhase a env ops).1) oks
                    (macPhase a env ops).1).2.isEmpty ∧ caveats.isEmpty then
                some ((applyOks (needPairs ops (macPhase a env ops).1) oks
                  (macPhase a env ops).1).1, used0, none)
              else
                if caveats.isEmpty then
                  some ((applyOks (needPairs ops (macPhase a env ops).1) oks
                    (macPhase a env ops).1).1, used0, some AllowErr2.permissionDenied)
                else
                  some ((applyOks (needPairs ops (macPhase a env ops).1) oks
                    (macPhase a env ops).1).1, used0, some (AllowErr2.discharge
                    ⟨"some operations have extra caveats", ops, caveats⟩))) =
        some (authed, used, e) →
      ∃ oks caveats k,
        env.userAllow (some idv) ((needPairs ops (macPhase a env ops).1).map Prod.snd) =
          UserAllowRes.ok oks caveats ∧
        k < (needPairs ops (macPhase a env ops).1).length ∧
        (needPairs ops (macPhase a env ops).1).getD k (0, ⟨"", ""⟩) = (p, LoginOp) ∧
        oks.getD k false = true := by
    intro idv used0 h2
    by_cases hcnt : (macPhase a env ops).1.count true = ops.length
    · rw [if_pos hcnt] at h2
      exact hnil (some idv) used0 none h2
    · rw [if_neg hcnt] at h2
      rcases huashape (env.userAllow (some idv)
          ((needPairs ops (macPhase a env ops).1).map Prod.snd)) with ⟨oks, caveats, hua⟩ | hua
      · rw [hua] at h2
        simp only at h2
        by_cases hlen : oks.length ≠ ((needPairs ops (macPhase a env ops).1).map Prod.snd).length
        · rw [if_pos hlen] at h2
          exact hbad (some idv) used0 _ h2
        · rw [if_neg hlen] at h2
          by_cases hstill : (applyOks (needPairs ops (macPhase a env ops).1) oks
              (macPhase a env ops).1).2.isEmpty ∧ caveats.isEmpty
          · rw [if_pos hstill] at h2
            exact happly (some idv) used0 none oks caveats hua h2
          · rw [if_neg hstill] at h2
            by_cases hcav : caveats.isEmpty
            · rw [if_pos hcav] at h2
              exact happly (some idv) used0 _ oks caveats hua h2
            · rw [if_neg hcav] at h2
              exact happly (some idv) used0 _ oks caveats hua h2
      · rw [hua] at h2
        simp only at h2
        exact hbad (some idv) used0 _ h2
  rcases Option.eq_none_or_eq_some a.identity with hid | ⟨idv, hid⟩
  · rw [hid]
    simp only [allowAny, hid] at h
    exact hmainNone _ h
  · rw [hid]
    cases hidx : a.authIndexes LoginOp with
    | nil =>
      simp only [allowAny, hid, hidx] at h
      exact Option.noConfusion h
    | cons idx idxs =>
      simp only [allowAny, hid, hidx] at h
      exact hmainSome idv _ h

theorem allowAny_loginOp_identity_only_witness :
    (0 < ([LoginOp, Op.mk "read" "e1"] : List Op).length ∧
      ([LoginOp, Op.mk "read" "e1"] : List Op).getD 0 ⟨"", ""⟩ = LoginOp ∧
      1 < ([LoginOp, Op.mk "read" "e1"] : List Op).length) ∧
    (macPhase
        { conds := [["c1"]], authIndexes := fun _ => [0], identity := some 1 }
        { checkOK := fun _ _ => true,
          userAllow := fun _ need => UserAllowRes.ok (need.map (fun _ => true)) [],
          identityCaveats := [] }
        [LoginOp, Op.mk "read" "e1"]).1.getD 0 false = false :=
  ⟨by decide,
   (allowAny_loginOp_identity_only
      { conds := [["c1"]], authIndexes := fun _ => [0], identity := some 1 }
      { checkOK := fun _ _ => true,
        userAllow := fun _ need => UserAllowRes.ok (need.map (fun _ => true)) [],
        identityCaveats := [] }
      [LoginOp, Op.mk "read" "e1"] 0 (by decide) (by decide) (by decide)).1⟩

end AuthV2

namespace Auth

theorem checkAuthz_eq (env : Env) (ops : List Op) (st : AState) (m0 : Mac) (rest : List Mac) :
    checkAuthzMacaroon env ops st (m0 :: rest) =
      (if (splitMacaroonId m0.id).1 = LoginEntity then some st
       else
        match env.storeGet (splitMacaroonId m0.id).1 (splitMacaroonId m0.id).2 with
        | .fail => none
        | r =>
          match env.verify (m0 :: rest) r.key with
          | none => some st
          | some conditions =>
            authzOpsLoop env (m0 :: rest) (splitMacaroonId m0.id).1 conditions 0 ops st) :=
  rfl

theorem addPending_macaroons (st : AState) (conds : List String) :
    (addPending st conds).macaroons = st.macaroons := by
  unfold addPending
  by_cases h : st.pendingConditions.length = 0 <;> simp [h]

theorem addPending_ok (st : AState) (conds : List String) :
    (addPending st conds).ok = st.ok := by
  unfold addPending
  by_cases h : st.pendingConditions.length = 0 <;> simp [h]

theorem addPending_empty (st : AState) (conds : List String)
    (h : st.pendingConditions = []) : addPending st conds = st := by
  unfold addPending
  rw [if_pos (by rw [h]; rfl)]

theorem addAuth_macaroons (st : AState) (ms : List Mac) (pending : List String) :
    (addAuthorizedMacaroon st ms pending).macaroons = st.macaroons ++ [ms] := by
  unfold addAuthorizedMacaroon
  rw [addPending_macaroons]

theorem addAuth_ok (st : AState) (ms : List Mac) (pending : List String) :
    (addAuthorizedMacaroon st ms pending).ok = st.ok := by
  unfold addAuthorizedMacaroon
  rw [addPending_ok]

theorem addAuth_pending_empty (st : AState) (ms : List Mac) (pending : List String)
    (h : st.pendingConditions = []) :
    (addAuthorizedMacaroon st ms pending).pendingConditions = [] := by
  unfold addAuthorizedMacaroon
  rw [addPending_empty { st with macaroons := st.macaroons ++ [ms] } pending h]
  exact h

theorem authzOpsLoop_inv (env : Env) (ms : List Mac) (en : String) (conditions : List String) :
    ∀ (l : List Op) (i : Nat) (st st2 : AState),
    authzOpsLoop env ms en conditions i l st = some st2 →
    (st.pendingConditions = [] → st2.pendingConditions = []) ∧
    (isAuthnSlice ms = false →
      st2.macaroons.filter isAuthnSlice = st.macaroons.filter isAuthnSlice) := by
  intro l
  induction l with
  | nil =>
    intro i st st2 h
    cases Option.some.inj h
    exact ⟨fun hp => hp, fun _ => rfl⟩
  | cons op rest ih =>
    intro i st st2 h
    simp only [authzOpsLoop] at h
    by_cases hok : st.ok.getD i false = true
    · rw [if_pos hok] at h
      exact ih (i + 1) st st2 h
    · rw [if_neg hok] at h
      cases hcc : checkConditions env conditions [op.action] with
      | none =>
        simp only [hcc] at h
        exact ih (i + 1) st st2 h
      | some dp =>
        simp only [hcc] at h
        have hset : ∀ (h2 : authzOpsLoop env ms en conditions (i + 1) rest
            (addAuthorizedMacaroon { st with ok := st.ok.set i true } ms dp.2) = some st2),
            (st.pendingConditions = [] → st2.pendingConditions = []) ∧
            (isAuthnSlice ms = false →
              st2.macaroons.filter isAuthnSlice = st.macaroons.filter isAuthnSlice) := by
          intro h2
          obtain ⟨h3, h4⟩ := ih (i + 1) _ st2 h2
          constructor
          · intro hp
            exact h3 (addAuth_pending_empty _ ms dp.2 hp)
          · intro hns
            rw [h4 hns, addAuth_macaroons, List.filter_append]
            simp [hns]
        by_cases hent : en = op.entity
        · rw [if_pos hent] at h
          exact hset h
        · rw [if_neg hent] at h
          by_cases hpre : hasPre multiOpPre en = true
          · rw [if_neg (not_not_intro hpre)] at h
            cases hmg : env.multiOpGet en with
            | fail =>
              simp only [hmg] at h
              exact Option.noConfusion h
            | notFound =>
              simp only [hmg] at h
              by_cases hmem : op ∈ (MultiOpResult.notFound).ops
              · rw [if_pos hmem] at h
                exact hset h
              · rw [if_neg hmem] at h
                exact ih (i + 1) st st2 h
            | found sops =>
              simp only [hmg] at h
              by_cases hmem : op ∈ (MultiOpResult.found sops).ops
              · rw [if_pos hmem] at h
                exact hset h
              · rw [if_neg hmem] at h
                exact ih (i + 1) st st2 h
          · rw [if_pos (by rw [Bool.not_eq_true] at hpre; rw [hpre]; exact Bool.false_ne_true)] at h
            exact ih (i + 1) st st2 h

theorem checkAuthzMacaroon_inv (env : Env) (ops : List Op) (st : AState) (ms : List Mac)
    (st2 : AState) (h : checkAuthzMacaroon env ops st ms = some st2) :
    (st.pendingConditions = [] → st2.pendingConditions = []) ∧
    st2.macaroons.filter isAuthnSlice = st.macaroons.filter isAuthnSlice := by
  cases ms with
  | nil =>
    simp only [checkAuthzMacaroon] at h
    cases Option.some.inj h
    exact ⟨fun hp => hp, rfl⟩
  | cons m0 rest =>
    rw [checkAuthz_eq] at h
    by_cases hlog : (splitMacaroonId m0.id).1 = LoginEntity
    · rw [if_pos hlog] at h
      cases Option.some.inj h
      exact ⟨fun hp => hp, rfl⟩
    · rw [if_neg hlog] at h
      have hns : isAuthnSlice (m0 :: rest) = false := by
        simp [isAuthnSlice, hlog]
      have hcont : ∀ rk : List Nat,
          (match env.verify (m0 :: rest) rk with
            | none => some st
            | some conditions =>
              authzOpsLoop env (m0 :: rest) (splitMacaroonId m0.id).1 conditions 0 ops st) =
            some st2 →
          (st.pendingConditions = [] → st2.pendingConditions = []) ∧
          st2.macaroons.filter isAuthnSlice = st.macaroons.filter isAuthnSlice := by
        intro rk h2
        cases hv : env.verify (m0 :: rest) rk with
        | none =>
          simp only [hv] at h2
          cases Option.some.inj h2
          exact ⟨fun hp => hp, rfl⟩
        | some conditions =>
          simp only [hv] at h2
          obtain ⟨h3, h4⟩ := authzOpsLoop_inv env (m0 :: rest) _ conditions ops 0 st st2 h2
          exact ⟨h3, h4 hns⟩
      cases hsg : env.storeGet (splitMacaroonId m0.id).1 (splitMacaroonId m0.id).2 with
      | fail =>
        simp only [hsg] at h
        exact Option.noConfusion h
      | found k =>
        simp only [hsg] at h
        exact hcont _ h
      | notFound =>
        simp only [hsg] at h
        exact hcont _ h

theorem authzPhase_inv (env : Env) (ops : List Op) : ∀ (mss : List (List Mac)) (st st2 : AState),
    authzPhase env ops mss st = some st2 →
    (st.pendingConditions = [] → st2.pendingConditions = []) ∧
    st2.macaroons.filter isAuthnSlice = st.macaroons.filter isAuthnSlice := by
  intro mss
  induction mss with
  | nil =>
    intro st st2 h
    cases Option.some.inj h
    exact ⟨fun hp => hp, rfl⟩
  | cons ms rest ih =>
    intro st st2 h
    simp only [authzPhase] at h
    cases hc : checkAuthzMacaroon env ops st ms with
    | none =>
      simp only [hc] at h
      exact Option.noConfusion h
    | some st1 =>
      simp only [hc] at h
      obtain ⟨h1, h2⟩ := checkAuthzMacaroon_inv env ops st ms st1 hc
      obtain ⟨h3, h4⟩ := ih st1 st2 h
      exact ⟨fun hp => h3 (h1 hp), h4.trans h2⟩

theorem authnLoop_spec (env : Env) (ops : List Op) : ∀ (mss : List (List Mac)) (st : AState)
    (r : Option User × AState), authnLoop env ops mss st = some r →
    r.1 = firstAuthnUser env ops mss ∧
    (r.2.macaroons.filter isAuthnSlice).length ≤
      (st.macaroons.filter isAuthnSlice).length + 1 ∧
    (st.pendingConditions = [] → r.2.pendingConditions = []) := by
  intro mss
  induction mss with
  | nil =>
    intro st r h
    cases Option.some.inj h
    exact ⟨rfl, Nat.le_succ _, fun hp => hp⟩
  | cons ms rest ih =>
    intro st r h
    simp only [authnLoop, firstAuthnUser] at h ⊢
    cases ha : checkAuthnMacaroon env ops ms with
    | hard =>
      simp only [ha] at h
      exact Option.noConfusion h
    | verificationError =>
      simp only [ha] at h ⊢
      exact ih st r h
    | ok user pending =>
      simp only [ha] at h ⊢
      cases Option.some.inj h
      refine ⟨rfl, ?_, ?_⟩
      · rw [addAuth_macaroons, List.filter_append]
        simp only [List.length_append]
        have hle : (List.filter isAuthnSlice [ms]).length ≤ 1 := by
          simp only [List.filter]
          cases isAuthnSlice ms <;> simp
        omega
      · intro hp
        exact addAuth_pending_empty st ms pending hp

theorem authzOpsLoop_isSome (env : Env) (ms : List Mac) (en : String)
    (conditions : List String) (hm : ∀ k, env.multiOpGet k ≠ MultiOpResult.fail) :
    ∀ (l : List Op) (i : Nat) (st : AState),
    (authzOpsLoop env ms en conditions i l st).isSome = true := by
  intro l
  induction l with
  | nil => intro i st; rfl
  | cons op rest ih =>
    intro i st
    simp only [authzOpsLoop]
    split
    · exact ih (i + 1) st
    · split
      · exact ih (i + 1) st
      · split
        · exact ih (i + 1) _
        · split
          · exact ih (i + 1) st
          · split
            · rename_i heq
              exact absurd heq (hm en)
            · split
              · exact ih (i + 1) _
              · exact ih (i + 1) st

/-- C4: for a presented non-login macaroon slice, failed cryptographic
verification (including a missing root key) never makes the call fail —
the slice contributes nothing and processing proceeds with the remaining
slices; checking the slice can only fail hard on a root-key-store error
other than not-found or a multi-op-store error other than not-found. -/
theorem checkAuthzMacaroon_error_policy (env : Env) (ops : List Op) (st : AState)
    (m0 : Mac) (rest : List Mac) (mss : List (List Mac)) :
    (env.storeGet (splitMacaroonId m0.id).1 (splitMacaroonId m0.id).2 ≠ RootKeyResult.fail →
      (∀ rk, env.verify (m0 :: rest) rk = none) →
      checkAuthzMacaroon env ops st (m0 :: rest) = some st ∧
      authzPhase env ops ((m0 :: rest) :: mss) st = authzPhase env ops mss st) ∧
    (env.storeGet (splitMacaroonId m0.id).1 (splitMacaroonId m0.id).2 ≠ RootKeyResult.fail →
      (∀ k, env.multiOpGet k ≠ MultiOpResult.fail) →
      (checkAuthzMacaroon env ops st (m0 :: rest)).isSome = true) ∧
    (checkAuthzMacaroon env ops st (m0 :: rest) = none →
      env.storeGet (splitMacaroonId m0.id).1 (splitMacaroonId m0.id).2 = RootKeyResult.fail ∨
      ∃ k, env.multiOpGet k = MultiOpResult.fail) := by
  have hbody : ∀ (hstore : env.storeGet (splitMacaroonId m0.id).1
      (splitMacaroonId m0.id).2 ≠ RootKeyResult.fail)
      (hv : ∀ rk, env.verify (m0 :: rest) rk = none),
      checkAuthzMacaroon env ops st (m0 :: rest) = some st := by
    intro hstore hv
    rw [checkAuthz_eq]
    by_cases hlog : (splitMacaroonId m0.id).1 = LoginEntity
    · rw [if_pos hlog]
    · rw [if_neg hlog]
      cases hsg : env.storeGet (splitMacaroonId m0.id).1 (splitMacaroonId m0.id).2 with
      | fail => exact absurd hsg hstore
      | found k => simp only [hv]
      | notFound => simp only [hv]
  have hsome : ∀ (_ : env.storeGet (splitMacaroonId m0.id).1
      (splitMacaroonId m0.id).2 ≠ RootKeyResult.fail)
      (_ : ∀ k, env.multiOpGet k ≠ MultiOpResult.fail),
      (checkAuthzMacaroon env ops st (m0 :: rest)).isSome = true := by
    intro hstore hm
    rw [checkAuthz_eq]
    by_cases hlog : (splitMacaroonId m0.id).1 = LoginEntity
    · rw [if_pos hlog]
      rfl
    · rw [if_neg hlog]
      cases hsg : env.storeGet (splitMacaroonId m0.id).1 (splitMacaroonId m0.id).2 with
      | fail => exact absurd hsg hstore
      | found k =>
        cases hv : env.verify (m0 :: rest) (RootKeyResult.found k).key with
        | none => simp only [hv]; rfl
        | some conditions =>
          simp only [hv]
          exact authzOpsLoop_isSome env _ _ conditions hm ops 0 st
      | notFound =>
        cases hv : env.verify (m0 :: rest) (RootKeyResult.notFound).key with
        | none => simp only [hv]; rfl
        | some conditions =>
          simp only [hv]
          exact authzOpsLoop_isSome env _ _ conditions hm ops 0 st
  refine ⟨?_, hsome, ?_⟩
  · intro hstore hv
    refine ⟨hbody hstore hv, ?_⟩
    simp only [authzPhase, hbody hstore hv]
  · intro hnone
    by_cases hstore : env.storeGet (splitMacaroonId m0.id).1 (splitMacaroonId m0.id).2 =
      RootKeyResult.fail
    · exact Or.inl hstore
    · by_cases hm : ∃ k, env.multiOpGet k = MultiOpResult.fail
      · exact Or.inr hm
      · have hm2 : ∀ k, env.multiOpGet k ≠ MultiOpResult.fail := by
          intro k hk
          exact hm ⟨k, hk⟩
        have h2 := hsome hstore hm2
        rw [hnone] at h2
        exact Bool.noConfusion h2

/-- Witness for C4: with the root key absent and cryptographic verification
failing, checking a presented slice succeeds and leaves the state unchanged. -/
theorem checkAuthzMacaroon_error_policy_witness :
    checkAuthzMacaroon
      { envA with storeGet := fun _ _ => .notFound, verify := fun _ _ => none }
      [⟨"read", "e1"⟩] ⟨[], [], []⟩ [⟨"e1 sid"⟩] = some ⟨[], [], []⟩ :=
  ((checkAuthzMacaroon_error_policy
      { envA with storeGet := fun _ _ => .notFound, verify := fun _ _ => none }
      [⟨"read", "e1"⟩] ⟨[], [], []⟩ ⟨"e1 sid"⟩ [] []).1
    (fun h => RootKeyResult.noConfusion h) (fun _ => rfl)).1

theorem aWA_macaroons (env : Env) (ops : List Op) (caveats : List Caveat)
    (user : Option User) (st st3 : AState)
    (h : authorizeWhenAuthenticated env ops caveats user st = .ok st3) :
    st3.macaroons = st.macaroons := by
  simp only [authorizeWhenAuthenticated] at h
  cases hg : env.getACLs (needOpsOf ops st.ok) with
  | none =>
    simp only [hg] at h
    exact Except.noConfusion h
  | some acls =>
    simp only [hg] at h
    cases hl : aclLoop env user st acls with
    | some e =>
      simp only [hl] at h
      exact Except.noConfusion h
    | none =>
      simp only [hl] at h
      by_cases he : caveats.isEmpty
      · rw [if_pos he] at h
        cases Except.ok.inj h
        rfl
      · rw [if_neg he] at h
        by_cases ha : caveats.any (fun cav => decide (cav.location ≠ "")) = true
        · rw [if_pos ha] at h
          exact Except.noConfusion h
        · rw [if_neg ha] at h
          cases hcc : checkConditions env (caveats.map (·.condition)) (actionsForOps ops) with
          | none =>
            simp only [hcc] at h
            exact Except.noConfusion h
          | some p =>
            simp only [hcc] at h
            cases Except.ok.inj h
            exact addPending_macaroons st p.2

/-- C3: on any successful authorization at most one of the used macaroon
slices is an authentication (login) slice; the user reported is the one
supplied by the first presented slice that `checkAuthnMacaroon` accepts
(later candidates being ignored); and a slice is accepted only when its
primary id names `LoginEntity`, it verifies against the stored root key,
its conditions check out against the actions of *all* requested
operations, and a user can be decoded from the declarations. -/
theorem authorize_single_authn (env : Env) (ops : List Op) (caveats : List Caveat)
    (mss : List (List Mac)) (info : AuthInfo)
    (h : authorize env ops caveats mss = .ok info) :
    (info.macaroons.filter isAuthnSlice).length ≤ 1 ∧
    info.user = firstAuthnUser env ops mss ∧
    (∀ ms user pending, checkAuthnMacaroon env ops ms = .ok user pending →
      isAuthnSlice ms = true ∧
      ∃ conditions declared,
        env.verify ms (env.storeGet (splitMacaroonId (ms.headD ⟨""⟩).id).1
            (splitMacaroonId (ms.headD ⟨""⟩).id).2).key = some conditions ∧
        checkConditions env conditions (actionsForOps ops) = some (declared, pending) ∧
        env.declaredUser declared = some user) := by
  have hdecode : ∀ ms user pending, checkAuthnMacaroon env ops ms = .ok user pending →
      isAuthnSlice ms = true ∧
      ∃ conditions declared,
        env.verify ms (env.storeGet (splitMacaroonId (ms.headD ⟨""⟩).id).1
            (splitMacaroonId (ms.headD ⟨""⟩).id).2).key = some conditions ∧
        checkConditions env conditions (actionsForOps ops) = some (declared, pending) ∧
        env.declaredUser declared = some user := by
    intro ms user pending hc
    cases ms with
    | nil => exact AuthnResult.noConfusion hc
    | cons m0 rest =>
      simp only [checkAuthnMacaroon] at hc
      by_cases hlog : (splitMacaroonId m0.id).1 = LoginEntity
      · rw [if_neg (fun hn => hn hlog)] at hc
        refine ⟨by simp [isAuthnSlice, hlog], ?_⟩
        cases hsg : env.storeGet (splitMacaroonId m0.id).1 (splitMacaroonId m0.id).2 with
        | fail =>
          simp only [hsg] at hc
          exact AuthnResult.noConfusion hc
        | found k =>
          simp only [hsg] at hc
          cases hv : env.verify (m0 :: rest) (RootKeyResult.found k).key with
          | none =>
            simp only [hv] at hc
            exact AuthnResult.noConfusion hc
          | some conditions =>
            simp only [hv] at hc
            cases hcc : checkConditions env conditions (actionsForOps ops) with
            | none =>
              simp only [hcc] at hc
              exact AuthnResult.noConfusion hc
            | some p =>
              cases p with
              | mk declared pend =>
                simp only [hcc] at hc
                cases hdu : env.declaredUser declared with
                | none =>
                  simp only [hdu] at hc
                  exact AuthnResult.noConfusion hc
                | some u =>
                  simp only [hdu] at hc
                  cases hc
                  refine ⟨conditions, declared, ?_, hcc, hdu⟩
                  simp only [List.headD_cons, hsg]
                  exact hv
        | notFound =>
          simp only [hsg] at hc
          cases hv : env.verify (m0 :: rest) (RootKeyResult.notFound).key with
          | none =>
            simp only [hv] at hc
            exact AuthnResult.noConfusion hc
          | some conditions =>
            simp only [hv] at hc
            cases hcc : checkConditions env conditions (actionsForOps ops) with
            | none =>
              simp only [hcc] at hc
              exact AuthnResult.noConfusion hc
            | some p =>
              cases p with
              | mk declared pend =>
                simp only [hcc] at hc
                cases hdu : env.declaredUser declared with
                | none =>
                  simp only [hdu] at hc
                  exact AuthnResult.noConfusion hc
                | some u =>
                  simp only [hdu] at hc
                  cases hc
                  refine ⟨conditions, declared, ?_, hcc, hdu⟩
                  simp only [List.headD_cons, hsg]
                  exact hv
      · rw [if_pos hlog] at hc
        exact AuthnResult.noConfusion hc
  cases hA : authorizeSt env ops caveats mss with
  | error e =>
    unfold authorize at h
    rw [hA] at h
    simp only [Except.map] at h
    exact Except.noConfusion h
  | ok p =>
    unfold authorize at h
    rw [hA] at h
    simp only [Except.map] at h
    cases h
    simp only [authorizeSt] at hA
    cases hps : phasesState env ops mss with
    | none =>
      simp only [hps] at hA
      exact Except.noConfusion hA
    | some us =>
      simp only [hps] at hA
      cases hE : (if allTrue us.2.ok then Except.ok us.2
          else authorizeWhenAuthenticated env ops caveats us.1 us.2) with
      | error e2 =>
        simp only [hE] at hA
        exact Except.noConfusion hA
      | ok st3 =>
        simp only [hE] at hA
        cases hA
        have hms : st3.macaroons = us.2.macaroons := by
          by_cases hall : allTrue us.2.ok = true
          · rw [if_pos hall] at hE
            cases Except.ok.inj hE
            rfl
          · rw [if_neg hall] at hE
            exact aWA_macaroons env ops caveats us.1 us.2 st3 hE
        simp only [phasesState] at hps
        cases hz : authzPhase env ops mss ⟨List.replicate ops.length false, [], []⟩ with
        | none =>
          simp only [hz] at hps
          exact Option.noConfusion hps
        | some st1 =>
          simp only [hz] at hps
          have h1 := authzPhase_inv env ops mss ⟨List.replicate ops.length false, [], []⟩ st1 hz
          have h2 := authnLoop_spec env ops mss st1 us hps
          refine ⟨?_, h2.1, hdecode⟩
          show ((st3.macaroons).filter isAuthnSlice).length ≤ 1
          rw [hms]
          have h3 := h2.2.1
          rw [h1.2] at h3
          simpa using h3

/-- Witness for C3: with two presented login slices of which the first
fails cryptographic verification, the second one supplies the user and is
the only authentication slice recorded. -/
theorem authorize_single_authn_witness :
    ((List.filter isAuthnSlice [[(⟨"login k2"⟩ : Mac)]]).length ≤ 1) ∧
    (some 7 : Option User) =
      firstAuthnUser
        { envA with verify := fun ms _ => if ms = [⟨"login k1"⟩] then none else some [] }
        [⟨"read", "e1"⟩] [[⟨"login k1"⟩], [⟨"login k2"⟩]] :=
  ⟨(authorize_single_authn
      { envA with verify := fun ms _ => if ms = [⟨"login k1"⟩] then none else some [] }
      [⟨"read", "e1"⟩] [] [[⟨"login k1"⟩], [⟨"login k2"⟩]]
      ⟨[], some 7, [[⟨"login k2"⟩]]⟩ (by rfl)).1,
   (authorize_single_authn
      { envA with verify := fun ms _ => if ms = [⟨"login k1"⟩] then none else some [] }
      [⟨"read", "e1"⟩] [] [[⟨"login k1"⟩], [⟨"login k2"⟩]]
      ⟨[], some 7, [[⟨"login k2"⟩]]⟩ (by rfl)).2.1⟩

/-- C1 (refuted): a caveat condition that evaluates to Unknown while
checking a macaroon used for the authorization can be silently dropped.
With a checker answering Unknown for `"cond-x"` and a macaroon whose
verified conditions are exactly `["cond-x"]`, the call succeeds using that
macaroon, yet `"cond-x"` is absent from the returned
`AuthInfo.pendingConditions` (which is empty): `addPending`'s guard
returns early whenever the accumulated list is empty, so nothing is ever
recorded. -/
theorem authorize_unknown_condition_dropped :
    ({ envA with
        check1 := fun _ _ cond => if cond = "cond-x" then CheckResult.unknown else .ok,
        verify := fun _ _ => some ["cond-x"] } : Env).check1 [] ["read"] "cond-x" =
      CheckResult.unknown ∧
    checkerAuthorize
      { envA with
        check1 := fun _ _ cond => if cond = "cond-x" then CheckResult.unknown else .ok,
        verify := fun _ _ => some ["cond-x"] }
      [⟨"read", "e1"⟩] [] [[⟨"e1 sid"⟩]] =
      .ok ⟨[], none, [[⟨"e1 sid"⟩]]⟩ ∧
    "cond-x" ∉ ([] : List String) :=
  ⟨rfl, by rfl, by decide⟩

/-- C2 (refuted): when all requested operations are satisfied via the ACL
check and an extra caveat has a non-empty third-party location, the call
does return a discharge-required error carrying a freshly minted
authorization macaroon that encodes the requested operations (entity
`"e1"`, `allow read`) and the extra caveats — but its `Authenticator` flag
is `true`, not `false`: `newAuthzDischargeRequiredError` (auth.go 670-680)
sets `Authenticator: true`. -/
theorem authorize_authz_discharge_authenticator :
    checkerAuthorize envA [⟨"read", "e1"⟩] [⟨"c", "loc"⟩] [] =
      .error (.discharge "further authorization required" true
        ⟨"e1", "e1 sid", [],
         [⟨"c", "loc"⟩, ⟨"time-before T", ""⟩, ⟨"allow read", ""⟩]⟩) ∧
    (⟨"c", "loc"⟩ : Caveat).location ≠ "" :=
  ⟨by rfl, by decide⟩

theorem checkCondsGo_congr (env : Env) (g : List Op → Option (List ACL)) (d : Declared)
    (a : List String) : ∀ (l pending : List String),
    checkCondsGo { env with getACLs := g } d a l pending = checkCondsGo env d a l pending := by
  intro l
  induction l with
  | nil => intro pending; rfl
  | cons c rest ih =>
    intro pending
    simp only [checkCondsGo]
    cases hc : env.check1 d a c with
    | ok =>
      simp only [hc]
      exact ih pending
    | unknown =>
      simp only [hc]
      exact ih (pending ++ [c])
    | fail => simp only [hc]

theorem checkConditions_congr (env : Env) (g : List Op → Option (List ACL)) :
    ∀ (conds a : List String),
    checkConditions { env with getACLs := g } conds a = checkConditions env conds a := by
  intro conds a
  simp only [checkConditions, checkCondsGo_congr env g]

theorem authzOpsLoop_congr (env : Env) (g : List Op → Option (List ACL)) (ms : List Mac)
    (en : String) (conditions : List String) : ∀ (l : List Op) (i : Nat) (st : AState),
    authzOpsLoop { env with getACLs := g } ms en conditions i l st =
      authzOpsLoop env ms en conditions i l st := by
  intro l
  induction l with
  | nil => intro i st; rfl
  | cons op rest ih =>
    intro i st
    simp only [authzOpsLoop, checkConditions_congr env g]
    by_cases hok : st.ok.getD i false = true
    · rw [if_pos hok, if_pos hok]
      exact ih (i + 1) st
    · rw [if_neg hok, if_neg hok]
      cases hcc : checkConditions env conditions [op.action] with
      | none =>
        simp only [hcc]
        exact ih (i + 1) st
      | some p =>
        cases p with
        | mk d pend =>
          simp only [hcc]
          by_cases hen : en = op.entity
          · rw [if_pos hen, if_pos hen]
            exact ih (i + 1) _
          · rw [if_neg hen, if_neg hen]
            by_cases hmp : hasPre multiOpPre en = true
            · rw [if_neg (not_not_intro hmp), if_neg (not_not_intro hmp)]
              cases hm : env.multiOpGet en with
              | fail => simp only [hm]
              | found l2 =>
                simp only [hm]
                by_cases hmem : op ∈ (MultiOpResult.found l2).ops
                · rw [if_pos hmem, if_pos hmem]
                  exact ih (i + 1) _
                · rw [if_neg hmem, if_neg hmem]
                  exact ih (i + 1) st
              | notFound =>
                simp only [hm]
                by_cases hmem : op ∈ (MultiOpResult.notFound).ops
                · rw [if_pos hmem, if_pos hmem]
                  exact ih (i + 1) _
                · rw [if_neg hmem, if_neg hmem]
                  exact ih (i + 1) st
            · rw [if_pos hmp, if_pos hmp]
              exact ih (i + 1) st

theorem checkAuthzMacaroon_congr (env : Env) (g : List Op → Option (List ACL)) (ops : List Op) :
    ∀ (st : AState) (ms : List Mac),
    checkAuthzMacaroon { env with getACLs := g } ops st ms =
      checkAuthzMacaroon env ops st ms := by
  intro st ms
  cases ms with
  | nil => rfl
  | cons m0 rest =>
    rw [checkAuthz_eq, checkAuthz_eq]
    by_cases hlog : (splitMacaroonId m0.id).1 = LoginEntity
    · rw [if_pos hlog, if_pos hlog]
    · rw [if_neg hlog, if_neg hlog]
      cases hsg : env.storeGet (splitMacaroonId m0.id).1 (splitMacaroonId m0.id).2 with
      | fail => simp only [hsg]
      | found k =>
        simp only [hsg]
        cases hv : env.verify (m0 :: rest) (RootKeyResult.found k).key with
        | none => simp only [hv]
        | some conditions =>
          simp only [hv]
          exact authzOpsLoop_congr env g (m0 :: rest) _ conditions ops 0 st
      | notFound =>
        simp only [hsg]
        cases hv : env.verify (m0 :: rest) (RootKeyResult.notFound).key with
        | none => simp only [hv]
        | some conditions =>
          simp only [hv]
          exact authzOpsLoop_congr env g (m0 :: rest) _ conditions ops 0 st

theorem authzPhase_congr (env : Env) (g : List Op → Option (List ACL)) (ops : List Op) :
    ∀ (mss : List (List Mac)) (st : AState),
    authzPhase { env with getACLs := g } ops mss st = authzPhase env ops mss st := by
  intro mss
  induction mss with
  | nil => intro st; rfl
  | cons ms rest ih =>
    intro st
    simp only [authzPhase, checkAuthzMacaroon_congr env g ops]
    cases hc : checkAuthzMacaroon env ops st ms with
    | none => simp only [hc]
    | some st2 =>
      simp only [hc]
      exact ih st2

theorem checkAuthnMacaroon_congr (env : Env) (g : List Op → Option (List ACL)) (ops : List Op) :
    ∀ (ms : List Mac),
    checkAuthnMacaroon { env with getACLs := g } ops ms = checkAuthnMacaroon env ops ms := by
  intro ms
  cases ms with
  | nil => rfl
  | cons m0 rest =>
    simp only [checkAuthnMacaroon, checkConditions_congr env g]

theorem authnLoop_congr (env : Env) (g : List Op → Option (List ACL)) (ops : List Op) :
    ∀ (mss : List (List Mac)) (st : AState),
    authnLoop { env with getACLs := g } ops mss st = authnLoop env ops mss st := by
  intro mss
  induction mss with
  | nil => intro st; rfl
  | cons ms rest ih =>
    intro st
    simp only [authnLoop, checkAuthnMacaroon_congr env g ops]
    cases hc : checkAuthnMacaroon env ops ms with
    | hard => simp only [hc]
    | verificationError =>
      simp only [hc]
      exact ih st
    | ok user pending => simp only [hc]

theorem phasesState_congr (env : Env) (g : List Op → Option (List ACL)) (ops : List Op)
    (mss : List (List Mac)) :
    phasesState { env with getACLs := g } ops mss = phasesState env ops mss := by
  simp only [phasesState, authzPhase_congr env g ops, authnLoop_congr env g ops]

theorem newAuthzDRE_congr (env : Env) (g : List Op → Option (List ACL)) (ops : List Op)
    (caveats : List Caveat) (st : AState) :
    newAuthzDRE { env with getACLs := g } ops caveats st = newAuthzDRE env ops caveats st := rfl

theorem aclLoop_congr (env : Env) (g : List Op → Option (List ACL)) (user : Option User)
    (st : AState) : ∀ (acls : List ACL),
    aclLoop { env with getACLs := g } user st acls = aclLoop env user st acls := by
  intro acls
  induction acls with
  | nil => cases user <;> rfl
  | cons acl rest ih =>
    cases user with
    | none =>
      simp only [aclLoop]
      by_cases hp : aclIsPublic acl = true
      · rw [if_pos hp, if_pos hp]
        exact ih
      · rw [if_neg hp, if_neg hp]
        rfl
    | some u =>
      simp only [aclLoop]
      cases hu : env.userAllow u acl with
      | fail => simp only [hu]
      | ok b =>
        cases b
        · simp only [hu]
        · simp only [hu]
          exact ih

theorem aWA_congr (env : Env) (g : List Op → Option (List ACL)) (ops : List Op)
    (caveats : List Caveat) (user : Option User) (st : AState)
    (hg : g (needOpsOf ops st.ok) = env.getACLs (needOpsOf ops st.ok)) :
    authorizeWhenAuthenticated { env with getACLs := g } ops caveats user st =
      authorizeWhenAuthenticated env ops caveats user st := by
  simp only [authorizeWhenAuthenticated, hg, aclLoop_congr env g user st,
    checkConditions_congr env g, newAuthzDRE_congr env g ops caveats st]

theorem needOpsAux_enumFrom (ok : List Bool) : ∀ (l : List Op) (i : Nat),
    needOpsAux ok i l =
      ((List.enumFrom i l).filter (fun p => ! ok.getD p.1 false)).map Prod.snd := by
  intro l
  induction l with
  | nil => intro i; rfl
  | cons op rest ih =>
    intro i
    cases hok : ok.getD i false with
    | false =>
      have hna : ¬ (ok.getD i false = true) := by
        rw [hok]
        exact Bool.false_ne_true
      have hpa : (! ok.getD ((i, op) : Nat × Op).1 false) = true := by
        simp only [hok, Bool.not_false]
      simp only [needOpsAux, List.enumFrom]
      rw [List.filter_cons, if_neg hna, if_pos hpa, List.map_cons, ih (i + 1)]
    | true =>
      have hpa : ¬ ((! ok.getD ((i, op) : Nat × Op).1 false) = true) := by
        simp only [hok, Bool.not_true]
        exact Bool.false_ne_true
      simp only [needOpsAux, List.enumFrom]
      rw [List.filter_cons, if_pos hok, if_neg hpa]
      exact ih (i + 1)

/-- C5: the result of an authorize call depends on `GetACLs` only through
its value at exactly the list of not-yet-satisfied operations, in request
order: when every requested operation was satisfied by the presented
macaroons the result is independent of `GetACLs` entirely (it is never
called), and otherwise any ACL source agreeing at precisely the
unsatisfied-operations list yields the same result; that list is the
requested operations whose index is not marked satisfied, in order. -/
theorem authorize_getacls_exact (env : Env) (ops : List Op) (caveats : List Caveat)
    (mss : List (List Mac)) (user : Option User) (st : AState)
    (g : List Op → Option (List ACL))
    (h : phasesState env ops mss = some (user, st)) :
    (allTrue st.ok = true →
      authorize { env with getACLs := g } ops caveats mss = authorize env ops caveats mss) ∧
    (g (needOpsOf ops st.ok) = env.getACLs (needOpsOf ops st.ok) →
      authorize { env with getACLs := g } ops caveats mss = authorize env ops caveats mss) ∧
    needOpsOf ops st.ok =
      ((ops.enum.filter (fun p => ! st.ok.getD p.1 false)).map Prod.snd) := by
  refine ⟨?_, ?_, needOpsAux_enumFrom st.ok ops 0⟩
  · intro hall
    simp only [authorize, authorizeSt, phasesState_congr env g ops, h, hall, if_true]
  · intro hg
    simp only [authorize, authorizeSt, phasesState_congr env g ops, h,
      aWA_congr env g ops caveats user st hg]

/-- Witness for C5: with one requested operation left unsatisfied, the
unsatisfied-operations list passed to the ACL source is exactly that
operation. -/
theorem authorize_getacls_exact_witness :
    needOpsOf [(⟨"read", "e1"⟩ : Op)] [false] =
      ((List.enum [(⟨"read", "e1"⟩ : Op)]).filter
        (fun p => ! [false].getD p.1 false)).map Prod.snd :=
  (authorize_getacls_exact envA [⟨"read", "e1"⟩] [] [] none ⟨[false], [], []⟩
    (fun _ => none) (by rfl)).2.2

end Auth

end Spec2Proof



